import Mathlib

/-!
# Verification of the Star Shine sinusoid-extraction core

A shallow embedding of `star_shine/core/analysis.py`.  The numerical
services the core consumes (Lomb-Scargle periodogram, linear least-squares
fitter, harmonic classifier, residual arithmetic) live in modules that are
external to the core; they are represented by an explicit `Oracle`
structure whose fields carry the contracts the specification assigns to
them, while every piece of control flow of `analysis.py` itself is
translated line by line.  Real-valued data is modelled by `ℚ`; the
residual arrays the oracles exchange are values of an abstract type `V`
equipped with `+` and `-`.
-/

namespace StarShine

/-! ## Rounding (numpy `np.round(x, 2)`: round half to even, 2 decimals) -/

/-- The floor of a rational, by integer division (kernel-computable,
equal to `⌊q⌋` by `ratFloor_eq_floor` below). -/
def ratFloor (q : ℚ) : ℤ := q.num / (q.den : ℤ)

/-- Nearest integer, ties up (kernel-computable, equal to Mathlib's
`round` by `ratRound_eq_round` below). -/
def ratRound (q : ℚ) : ℤ := ratFloor (q + 1/2)

/-- Round a rational to the nearest integer, ties to even (numpy rounding). -/
def roundHalfEven (q : ℚ) : ℤ :=
  if q - ratFloor q < 1/2 then ratFloor q
  else if 1/2 < q - ratFloor q then ratFloor q + 1
  else if ratFloor q % 2 = 0 then ratFloor q else ratFloor q + 1

/-- `np.round(q, 2)`: round to two decimal places, ties to even. -/
def round2 (q : ℚ) : ℚ := (roundHalfEven (100 * q) : ℚ) / 100

/-! ## List helpers (numpy primitives used by the source) -/

/-- Auxiliary recursion for `np.argmax`: `i` is the index of the next
element, `bi`/`bv` the best index and value so far. -/
def argmaxAux : List ℚ → ℕ → ℕ → ℚ → ℕ
  | [], _, bi, _ => bi
  | x :: xs, i, bi, bv =>
    if bv < x then argmaxAux xs (i + 1) i x else argmaxAux xs (i + 1) bi bv

/-- `np.argmax`: index of the first maximal element (0 on the empty list). -/
def argmaxIdx : List ℚ → ℕ
  | [] => 0
  | x :: xs => argmaxAux xs 1 0 x

/-- Auxiliary recursion for `np.delete`: drop the elements whose position
(counted from `i`) is listed in `rs`. -/
def deleteIdxsAux (rs : List ℕ) : ℕ → List α → List α
  | _, [] => []
  | i, x :: xs =>
    if i ∈ rs then deleteIdxsAux rs (i + 1) xs else x :: deleteIdxsAux rs (i + 1) xs

/-- `np.delete(xs, rs)`: remove the entries of `xs` at the positions in `rs`. -/
def deleteIdxs (xs : List α) (rs : List ℕ) : List α := deleteIdxsAux rs 0 xs

/-- Minimum of a list (`np.min`; 0 on the empty list, never used there). -/
def listMin : List ℚ → ℚ
  | [] => 0
  | x :: xs => xs.foldl min x

/-- Maximum of a list (`np.max`; 0 on the empty list, never used there). -/
def listMax : List ℚ → ℚ
  | [] => 0
  | x :: xs => xs.foldl max x

/-- Insert an integer into a sorted duplicate-free list, keeping it sorted
and duplicate-free. -/
def insertUnique (x : ℤ) : List ℤ → List ℤ
  | [] => [x]
  | y :: ys =>
    if x < y then x :: y :: ys
    else if x = y then y :: ys
    else y :: insertUnique x ys

/-- `np.unique`: the sorted list of distinct values. -/
def uniqueSorted (xs : List ℤ) : List ℤ :=
  xs.foldl (fun acc x => insertUnique x acc) []

/-! ## Data model

Modelled from the spec: the `TimeSeriesModel` / `Sinusoid Set` classes live
in `star_shine/core/time_series.py`, which is not part of the analysed
sources; §3 and §4.1 of the spec describe them.  A sinusoid is a
`(frequency, amplitude, phase)` triple with an exclusion flag (soft
removal) and a harmonic flag. -/

/-- One sinusoid of the Sinusoid Set (spec §3). -/
structure Sin where
  f : ℚ
  a : ℚ
  ph : ℚ
  excl : Bool
  harm : Bool
deriving Repr, DecidableEq

instance : Inhabited Sin := ⟨⟨0, 0, 0, false, false⟩⟩

/-- A `(frequency, amplitude, phase)` triple. -/
abbrev Triple := ℚ × ℚ × ℚ

/-- Piecewise linear trend: the per-chunk intercepts and slopes. -/
abbrev LinPars := List ℚ × List ℚ

/-- The mutable state of a `TimeSeriesModel`: the Sinusoid Set and the
linear trend.  The immutable series (`time`, `flux`, chunk bounds) is
folded into the oracle below. -/
structure TSState where
  sins : List Sin
  lin : LinPars
deriving Repr, DecidableEq

namespace TSState

/-- `sinusoid.f_n`: the stored frequency array (excluded entries kept). -/
def f_n (s : TSState) : List ℚ := s.sins.map (·.f)

/-- `sinusoid.a_n`: the stored amplitude array. -/
def a_n (s : TSState) : List ℚ := s.sins.map (·.a)

/-- `sinusoid.ph_n`: the stored phase array. -/
def ph_n (s : TSState) : List ℚ := s.sins.map (·.ph)

/-- `sinusoid.n_sin`: the number of stored sinusoids. -/
def n_sin (s : TSState) : ℕ := s.sins.length

/-- `get_sinusoid_parameters(exclude=False)`: all stored parameter triples. -/
def triples (s : TSState) : List Triple := s.sins.map (fun x => (x.f, x.a, x.ph))

/-- The parameter triples of the sinusoids currently in the model (those
not soft-removed); this is what the residual, and hence the linear fit and
the BIC, depend on. -/
def activeTriples (s : TSState) : List Triple :=
  (s.sins.filter (fun x => !x.excl)).map (fun x => (x.f, x.a, x.ph))

/-- Whether the sinusoid at index `i` is flagged harmonic. -/
def harmAt (s : TSState) (i : ℕ) : Bool := (s.sins.getD i default).harm

/-- `add_sinusoids`: append new sinusoids (spec §4.1); fresh sinusoids are
included and non-harmonic. -/
def addSins (s : TSState) (ts : List Triple) : TSState :=
  { s with sins := s.sins ++ ts.map (fun t => ⟨t.1, t.2.1, t.2.2, false, false⟩) }

/-- `remove_sinusoids`: delete the sinusoids at the given indices. -/
def removeSins (s : TSState) (idxs : List ℕ) : TSState :=
  { s with sins := deleteIdxs s.sins idxs }

/-- `exclude_sinusoids`: soft-remove the sinusoids at the given indices
(absent from the residual, retained for reinstatement, spec §4.1). -/
def excludeSins (s : TSState) (idxs : List ℕ) : TSState :=
  { s with sins :=
      ((s.sins.zip (List.range s.sins.length)).map
        (fun p => if p.2 ∈ idxs then { p.1 with excl := true } else p.1)) }

/-- `include_sinusoids`: undo a soft removal. -/
def includeSins (s : TSState) (idxs : List ℕ) : TSState :=
  { s with sins :=
      ((s.sins.zip (List.range s.sins.length)).map
        (fun p => if p.2 ∈ idxs then { p.1 with excl := false } else p.1)) }

/-- `update_sinusoids(f, a, ph, j)` for a single index: store the new
parameters and reinstate the sinusoid (spec §4.4 "reinstates it with
updated values"); the harmonic flag is kept. -/
def updateSin (s : TSState) (f a ph : ℚ) (j : ℕ) : TSState :=
  { s with sins :=
      s.sins.set j { (s.sins.getD j default) with f := f, a := a, ph := ph, excl := false } }

/-- `update_sinusoids(f_c, a_c, ph_c, idxs)` with full snapshot arrays:
restore the listed indices to their snapshot triples (rollback of a
refinement pass). -/
def updateSinsAt (s : TSState) (snap : List Triple) (idxs : List ℕ) : TSState :=
  idxs.foldl
    (fun m j =>
      let t := snap.getD j (0, 0, 0)
      m.updateSin t.1 t.2.1 t.2.2 j) s

/-- `set_sinusoids(f, a, ph)`: replace the whole stored parameter set by
the given triples.  Modelled from the spec: phase wrapping is omitted
(stored phases are already wrapped and wrapping is idempotent); harmonic
flags are kept positionally where a sinusoid already exists. -/
def setSins (s : TSState) (ts : List Triple) : TSState :=
  { s with sins :=
      ((ts.zip (List.range ts.length)).map
        (fun p => ⟨p.1.1, p.1.2.1, p.1.2.2, false, (s.sins.getD p.2 default).harm⟩)) }

/-- `set_linear_model(const, slope)`. -/
def setLinear (s : TSState) (cs : LinPars) : TSState := { s with lin := cs }

/-- `remove_excluded`: permanently delete all soft-removed sinusoids. -/
def removeExcluded (s : TSState) : TSState :=
  { s with sins := s.sins.filter (fun x => !x.excl) }

end TSState

/-! ## The external services

Modelled from the spec (§6): the Periodogram Service, the non-linear
fitter, the model/goodness-of-fit helpers and the frequency-set utilities
are consumed through contracts and are not part of the analysed sources.
An `Oracle V` packages them; `V` is the type of data arrays (flux and
residual vectors). -/

/-- The external numerical services of spec §6.  Every field is a pure
function: the source computes deterministically from its inputs.  Where
the python passes `time` it is a fixed array owned by the model, so it is
folded into the oracle. -/
structure Oracle (V : Type) where
  /-- `pdg.scargle(time, flux, f0, fn, df)`: the frequency grid scanned
  over `[f0, fn]` and the amplitude spectrum on it. -/
  scargle : V → ℚ → ℚ → ℚ → List ℚ × List ℚ
  /-- `pdg.scargle_parallel`: same contract as `scargle`. -/
  scargle_parallel : V → ℚ → ℚ → ℚ → List ℚ × List ℚ
  /-- `pdg.scargle_noise_spectrum_redux(freqs, ampls, window_width)`. -/
  noise_spectrum : List ℚ → List ℚ → ℚ → List ℚ
  /-- `pdg.scargle_ampl_phase_single(time, flux, f)`. -/
  ampl_phase_single : V → ℚ → ℚ × ℚ
  /-- `pdg.scargle_ampl_phase(time, flux, fs)`. -/
  ampl_phase : V → List ℚ → List ℚ × List ℚ
  /-- `pdg.scargle_noise_at_freq(fs, time, resid, window_width)`. -/
  noise_at_freq : List ℚ → V → ℚ → List ℚ
  /-- `ut.uphill_local_max(freqs, values, seeds)`: for each seed the index
  of the local maximum reached walking uphill. -/
  uphill_local_max : List ℚ → List ℚ → List ℚ → List ℕ
  /-- `ts_model.residual()`: flux minus trend minus active sinusoids,
  a pure function of the current state (spec §4.1). -/
  residual : TSState → V
  /-- `ts_model.update_linear_model()`: the per-chunk ordinary
  least-squares trend, a deterministic function of the active sinusoid
  parameters (spec §4.1). -/
  linFit : List Triple → LinPars
  /-- `ts_model.bic()`: the BIC of the current residual (spec §4.1). -/
  bic : TSState → ℚ
  /-- `frs.f_within_rayleigh(i, f_n, f_resolution)`. -/
  f_within_rayleigh : ℕ → List ℚ → ℚ → List ℕ
  /-- `fit.fit_multi_sinusoid_per_group`: the joint non-linear refit. -/
  fit_multi : TSState → LinPars × List Triple
  /-- `mdl.sum_sines(time, f, a, ph)`. -/
  sum_sines : List ℚ → List ℚ → List ℚ → V
  /-- `mdl.linear_pars(time, resid, i_chunks)`. -/
  linear_pars : V → LinPars
  /-- `mdl.linear_curve(time, const, slope, i_chunks)`. -/
  linear_curve : LinPars → V
  /-- `gof.calc_bic(resid, n_param)`. -/
  calc_bic : V → ℕ → ℚ

/-- `ts_model.update_linear_model()` applied to a state. -/
def TSState.updateLinear (s : TSState) (o : Oracle V) : TSState :=
  { s with lin := o.linFit s.activeTriples }

/-- The constant context of one analysis run: the time baseline and the
model-level periodogram bounds and frequency resolution (spec §3). -/
structure Ctx where
  t_ptp : ℚ
  pd_f0 : ℚ
  pd_fn : ℚ
  f_resolution : ℚ

/-- The frequency-selection strategy of `extract_sinusoids`. -/
inductive Select | a | sn | hybrid
deriving Repr, DecidableEq

/-- The stop criterion of `extract_sinusoids`. -/
inductive StopCrit | bic | snr
deriving Repr, DecidableEq

/-! ## Single-frequency extractors (`analysis.py` lines 20-194) -/

variable {V : Type}

/-- Lines 69-81, repeated verbatim in each of the three extractors:
refine the chosen peak `p₀` on a 100x denser grid over
`[max(p₀ - df, df/10), p₀ + df]`, take the highest refined amplitude,
and compute the phase at the refined frequency. -/
def refinePeak (o : Oracle V) (flux : V) (df p₀ : ℚ) : ℚ × ℚ × ℚ :=
  let f_left := max (p₀ - df) (df / 10)
  let f_right := p₀ + df
  let fa2 := o.scargle flux f_left f_right (df / 100)
  let i2 := argmaxIdx fa2.2
  (fa2.1.getD i2 0, fa2.2.getD i2 0, (o.ampl_phase_single flux (fa2.1.getD i2 0)).2)

/-- `extract_single(time, flux, f0, fn, select)` (lines 20-82): scan the
full range, optionally divide by the noise spectrum for the selection,
pick the highest peak and refine it.  `t_ptp` is `np.ptp(time)`. -/
def extract_single (o : Oracle V) (flux : V) (t_ptp f0 fn : ℚ) (sel : Select) :
    ℚ × ℚ × ℚ :=
  let df := (1/10) / t_ptp
  let fa := o.scargle_parallel flux f0 fn df
  let ampls :=
    if sel = Select.sn then
      (fa.2.zip (o.noise_spectrum fa.1 fa.2 1)).map (fun p => p.1 / p.2)
    else fa.2
  let i_f_max := argmaxIdx ampls
  refinePeak o flux df (fa.1.getD i_f_max 0)

/-- `extract_local(time, flux, f0, fn)` (lines 85-143): scan `[f0, fn]`,
trim rising edges via `uphill_local_max` on the negated amplitudes, pick
the highest remaining peak and refine it exactly as `extract_single`. -/
def extract_local (o : Oracle V) (flux : V) (t_ptp f0 fn : ℚ) : ℚ × ℚ × ℚ :=
  let df := (1/10) / t_ptp
  let fa := o.scargle flux f0 fn df
  let edges := o.uphill_local_max fa.1 (fa.2.map Neg.neg)
      [fa.1.getD 0 0, fa.1.getD (fa.1.length - 1) 0]
  let e0 := edges.getD 0 0
  let e1 := edges.getD 1 0
  let freqs := (fa.1.drop e0).take (e1 + 1 - e0)
  let ampls := (fa.2.drop e0).take (e1 + 1 - e0)
  let i_f_max := argmaxIdx ampls
  refinePeak o flux df (freqs.getD i_f_max 0)

/-- The initial scan window of `extract_approx` (lines 171-175):
`f0 = max(f_approx - 25*df, df/10)`, `fn = f_approx + 25*df` with
`df = 0.1/np.ptp(time)`. -/
def approx_window (t_ptp f_approx : ℚ) : ℚ × ℚ :=
  (max (f_approx - 25 * ((1/10) / t_ptp)) (((1/10) / t_ptp) / 10),
    f_approx + 25 * ((1/10) / t_ptp))

/-- `extract_approx(time, flux, f_approx)` (lines 146-194): scan the
window around the approximate frequency, walk uphill to the nearest peak,
and refine it exactly as `extract_single`. -/
def extract_approx (o : Oracle V) (flux : V) (t_ptp f_approx : ℚ) : ℚ × ℚ × ℚ :=
  let df := (1/10) / t_ptp
  let w := approx_window t_ptp f_approx
  let fa := o.scargle flux w.1 w.2 df
  let i_f_max := (o.uphill_local_max fa.1 fa.2 [f_approx]).getD 0 0
  refinePeak o flux df (fa.1.getD i_f_max 0)

/-- The spec §6 contract of `spectrum(time, flux, f0, fn, df)`: on a
well-formed request the grid is non-empty, amplitudes align with
frequencies, frequencies stay within the requested interval, and
amplitudes are non-negative. -/
def GridContract (g : V → ℚ → ℚ → ℚ → List ℚ × List ℚ) : Prop :=
  ∀ (flux : V) (a b d : ℚ), 0 < d → a ≤ b →
    (g flux a b d).1 ≠ [] ∧
    (g flux a b d).1.length = (g flux a b d).2.length ∧
    (∀ x ∈ (g flux a b d).1, a ≤ x ∧ x ≤ b) ∧
    (∀ y ∈ (g flux a b d).2, 0 ≤ y)

/-- The spec §6 contract of `uphill_local_max`: the returned positions are
valid indices of the scanned grid, ordered along it. -/
def UphillContract (o : Oracle V) : Prop :=
  ∀ (fr am s : List ℚ), fr ≠ [] →
    (o.uphill_local_max fr am s).getD 0 0 ≤ (o.uphill_local_max fr am s).getD 1 0 ∧
    (o.uphill_local_max fr am s).getD 1 0 < fr.length

/-! ## Close-frequency refinement and replacement (lines 197-366) -/

/-- One whole-cluster pass plus the stop test of the `refine_subset` while
loop (lines 228-268): re-extract every member of `close_f` against the
residual of the others, then either keep the pass (BIC improved after
2-decimal rounding) and continue, or roll the pass back.  `fuel` bounds
the number of passes of the source's unbounded `while`. -/
def refineLoop (o : Oracle V) (ctx : Ctx) (close_f i_harm : List ℕ) :
    ℕ → TSState → ℚ → TSState
  | 0, m, _ => m
  | fuel + 1, m, bic_prev =>
    let snap := m.triples
    let m1 := close_f.foldl
      (fun mm j =>
        let mm := (mm.excludeSins [j]).updateLinear o
        let f_j := mm.f_n.getD j 0
        if j ∈ i_harm then
          let ap := o.ampl_phase_single (o.residual mm) f_j
          mm.updateSin f_j ap.1 ap.2 j
        else
          let t := extract_approx o (o.residual mm) ctx.t_ptp f_j
          mm.updateSin t.1 t.2.1 t.2.2 j) m
    let m2 := m1.updateLinear o
    let bic := o.bic m2
    if round2 (bic_prev - bic) > 0 then refineLoop o ctx close_f i_harm fuel m2 bic
    else ((m2.updateSinsAt snap close_f).updateLinear o)

/-- `refine_subset(ts_model, close_f)` (lines 197-273). -/
def refine_subset (o : Oracle V) (ctx : Ctx) (fuel : ℕ) (m : TSState)
    (close_f : List ℕ) : TSState :=
  let i_harm := (List.range m.n_sin).filter (fun i => m.harmAt i)
  refineLoop o ctx close_f i_harm fuel m (o.bic m)

/-- All contiguous windows of length `k` of `xs`. -/
def windowsOfLen (xs : List ℕ) (k : ℕ) : List (List ℕ) :=
  (List.range (xs.length + 1 - k)).map (fun i => (xs.drop i).take k)

/-- `ut.consecutive_subsets(close_f)`.  Modelled from the spec (§4.4, the
utility module is not part of the analysed sources): every contiguous
sub-chain of at least two members, longer chains first. -/
def consecutive_subsets (xs : List ℕ) : List (List ℕ) :=
  ((List.range (xs.length - 1)).map (fun j => xs.length - j)).flatMap (windowsOfLen xs)

/-- The body of the `replace_subset` loop over sub-chains (lines 312-359):
skip chains touching already-replaced members; soft-remove the chain;
re-extract one replacement (amplitude/phase only if the chain holds
harmonics); accept when the BIC improved after 2-decimal rounding, else
drop the replacement and reinstate the chain. -/
def replaceStep (o : Oracle V) (ctx : Ctx) (freq_res : ℚ) (i_harm : List ℕ)
    (acc : TSState × ℚ × List ℕ) (set_i : List ℕ) : TSState × ℚ × List ℕ :=
  let bp := acc.2.1
  let removed := acc.2.2
  if set_i.any (fun i => i ∈ removed) then acc else
  let m := (acc.1.excludeSins set_i).updateLinear o
  let harm_i := set_i.filter (fun h => h ∈ i_harm)
  let f_c := m.f_n
  let fap : List ℚ × List ℚ × List ℚ :=
    if harm_i = [] then
      let f0 := listMin (set_i.map (fun h => f_c.getD h 0)) - freq_res
      let fn := listMax (set_i.map (fun h => f_c.getD h 0)) + freq_res
      let t := extract_local o (o.residual m) ctx.t_ptp f0 fn
      ([t.1], [t.2.1], [t.2.2])
    else
      let f_i := harm_i.map (fun h => f_c.getD h 0)
      let ap := o.ampl_phase (o.residual m) f_i
      (f_i, ap.1, ap.2)
  let m := (m.addSins (fap.1.zip (fap.2.1.zip fap.2.2))).updateLinear o
  let bic := o.bic m
  if round2 (bp - bic) > 0 then (m, bic, removed ++ set_i)
  else
    let m := m.removeSins (List.range' f_c.length fap.1.length)
    let m := (m.includeSins set_i).updateLinear o
    (m, bp, removed)

/-- `replace_subset(ts_model, close_f)` (lines 275-366): try to replace
contiguous sub-chains of `close_f` by a single sinusoid
(`freq_res = 1/t_tot`, the standard resolution), then permanently delete
every sinusoid left soft-removed. -/
def replace_subset (o : Oracle V) (ctx : Ctx) (m : TSState) (close_f : List ℕ) :
    TSState :=
  let freq_res := 1 / ctx.t_ptp
  let i_harm := (List.range m.n_sin).filter (fun i => m.harmAt i)
  let sets := consecutive_subsets close_f
  let res := sets.foldl (replaceStep o ctx freq_res i_harm) (m, o.bic m, [])
  res.1.removeExcluded

/-! ## The prewhitening loop `extract_sinusoids` (lines 369-528) -/

/-- The keyword parameters of `extract_sinusoids`, plus the fuel bounds
for the source's unbounded `while` loops (`fuel` for the main loop,
`rfuel` for the `refine_subset` sub-loop). -/
structure XParams where
  bic_thr : ℚ
  snr_thr : ℚ
  stop_crit : StopCrit
  select : Select
  n_extract : ℕ
  fit_each_step : Bool
  replace_each_step : Bool
  rfuel : ℕ

/-- Lines 432-433: `n_extract == 0` is replaced by `10**6` ("a lot"). -/
def capOf (p : XParams) : ℤ :=
  if p.n_extract = 0 then 10 ^ 6 else (p.n_extract : ℤ)

/-- The loop state of `extract_sinusoids`: the model, the current
selection method, the hybrid switch flag, the recorded BIC `bic_prev`,
and the two loop conditions. -/
structure ExtractLoopSt where
  model : TSState
  sel : Select
  switch : Bool
  bicPrev : ℚ
  cond1 : Bool
  cond2 : Bool
deriving Repr, DecidableEq

/-- Lines 457-460: at the start of an iteration, switch the selection
method to `sn` (and clear the switch flag) when the switch is armed and
the previous iteration was a rejection. -/
def stepSel (st : ExtractLoopSt) : Select × Bool :=
  if st.switch && !st.cond1 then (Select.sn, false) else (st.sel, st.switch)

/-- Lines 462-493, the iteration body up to the BIC evaluation: extract
one candidate from the residual, add it, then either joint-refit
everything (`fit_each_step`) or refine the frequencies close to the new
one, and optionally attempt a close-frequency replacement.  Returns the
tentative model together with the candidate triple. -/
def extractBody (o : Oracle V) (ctx : Ctx) (p : XParams) (st : ExtractLoopSt) :
    TSState × Triple :=
  let sel := (stepSel st).1
  let m := st.model
  let cand := extract_single o (o.residual m) ctx.t_ptp ctx.pd_f0 ctx.pd_fn sel
  let m := m.addSins [cand]
  let m :=
    if p.fit_each_step then
      let out := o.fit_multi m
      (m.setLinear out.1).setSins out.2
    else
      let close_f := o.f_within_rayleigh (m.n_sin - 1) m.f_n ctx.f_resolution
      if 1 < close_f.length then refine_subset o ctx p.rfuel m close_f
      else m.updateLinear o
  let m :=
    if p.replace_each_step then
      let close_f := o.f_within_rayleigh (m.n_sin - 1) m.f_n ctx.f_resolution
      if 1 < close_f.length then replace_subset o ctx m close_f else m
    else m
  (m, cand)

/-- One full iteration of the `extract_sinusoids` while loop (lines
456-522): snapshot, body, acceptance test (BIC drop rounded to 2 decimals
above `bic_thr`, or SNR above `snr_thr`), accept or roll back to the
snapshot, and re-evaluate the count-limit condition.  `n0` is the initial
sinusoid count `n_sin_init`. -/
def extractStep (o : Oracle V) (ctx : Ctx) (p : XParams) (n0 : ℕ)
    (st : ExtractLoopSt) : ExtractLoopSt :=
  let selsw := stepSel st
  let snap := st.model.triples
  let mc := extractBody o ctx p st
  let m1 := mc.1
  let cand := mc.2
  let bic := o.bic m1
  let d_bic := st.bicPrev - bic
  let cond1 :=
    match p.stop_crit with
    | StopCrit.snr =>
      let noise := (o.noise_at_freq [cand.1] (o.residual m1) 1).getD 0 0
      decide (p.snr_thr < cand.2.1 / noise)
    | StopCrit.bic => decide (p.bic_thr < round2 d_bic)
  let m2 := if cond1 then m1 else (m1.setSins snap).updateLinear o
  let bp2 := if cond1 then bic else st.bicPrev
  let cond2 := decide ((m2.n_sin : ℤ) - (n0 : ℤ) < capOf p)
  ⟨m2, selsw.1, selsw.2, bp2, cond1, cond2⟩

/-- Line 456: the guard `(condition_1 | switch) & condition_2`. -/
def loopGuard (st : ExtractLoopSt) : Bool := (st.cond1 || st.switch) && st.cond2

/-- The `extract_sinusoids` while loop, bounded by fuel. -/
def extractLoop (o : Oracle V) (ctx : Ctx) (p : XParams) (n0 : ℕ) :
    ℕ → ExtractLoopSt → ExtractLoopSt
  | 0, st => st
  | fuel + 1, st =>
    if loopGuard st then extractLoop o ctx p n0 fuel (extractStep o ctx p n0 st)
    else st

/-- The initial loop state of `extract_sinusoids` (lines 436-455):
hybrid selection starts with amplitude selection and an armed switch;
`bic_prev` is initialised to the current BIC; both conditions start true. -/
def extractInit (o : Oracle V) (p : XParams) (m : TSState) : ExtractLoopSt :=
  let selsw :=
    if p.select = Select.hybrid then (Select.a, true) else (p.select, false)
  ⟨m, selsw.1, selsw.2, o.bic m, true, true⟩

/-- `extract_sinusoids(ts_model, ...)` (lines 369-528). -/
def extract_sinusoids (o : Oracle V) (ctx : Ctx) (p : XParams) (fuel : ℕ)
    (m : TSState) : TSState :=
  (extractLoop o ctx p m.n_sin fuel (extractInit o p m)).model

/-! ## Harmonic classification

Modelled from the spec: `frs.find_harmonics_tolerance` /
`find_harmonics_from_pattern` live in `core/frequency_sets.py`, which is
not part of the analysed sources.  Per §4.5/§4.6 a frequency is a
harmonic candidate when it lies within the tolerance of an exact positive
integer multiple of `1/p_orb`; the multiple assigned is the nearest one. -/

/-- The harmonic number assigned to `f` for period `p = p_orb` passed as
`f * p_orb`-rounding: the nearest positive integer to `f * p_orb`. -/
def nearestHarmN (f p_orb : ℚ) : ℤ := max 1 (ratRound (f * p_orb))

/-- Whether `f` is within `tol` of its nearest positive harmonic
`nearestHarmN f p_orb / p_orb`. -/
def isHarmCand (f p_orb tol : ℚ) : Bool :=
  decide (|f - (nearestHarmN f p_orb : ℚ) / p_orb| ≤ tol)

/-- The recursion behind the harmonic finders: the `(index, harmonic
number)` pairs of the candidates, indices counted from `i`. -/
def findHarmAux (p_orb tol : ℚ) : ℕ → List ℚ → List (ℕ × ℤ)
  | _, [] => []
  | i, f :: fs =>
    if isHarmCand f p_orb tol then
      (i, nearestHarmN f p_orb) :: findHarmAux p_orb tol (i + 1) fs
    else findHarmAux p_orb tol (i + 1) fs

/-- Modelled from the spec: `frs.find_harmonics_tolerance(f_n, p_orb,
f_tol)` returns the candidate indices with their harmonic numbers. -/
def find_harmonics_tolerance (f_n : List ℚ) (p_orb tol : ℚ) : List (ℕ × ℤ) :=
  findHarmAux p_orb tol 0 f_n

/-- Modelled from the spec: `frs.find_harmonics_from_pattern` classifies
against the same tolerance criterion (the pattern variant differs only in
how ambiguities between neighbouring multiples are resolved, which cannot
arise at the 1e-9 tolerance it is called with here). -/
def find_harmonics_from_pattern (f_n : List ℚ) (p_orb tol : ℚ) : List (ℕ × ℤ) :=
  findHarmAux p_orb tol 0 f_n

/-- Modelled from the spec (§4.1): `ut.n_parameters(n_chunks, n_sin,
n_harm) = 2*chunks + 3*sinusoids + 1*harmonic`; it only feeds the
`n_param` argument of `gof.calc_bic`. -/
def n_parameters (n_chunks n_sin n_harm : ℕ) : ℕ :=
  2 * n_chunks + 3 * n_sin + n_harm

/-! ## `fix_harmonic_frequency` (lines 612-746) -/

/-- The accumulator of the harmonic-replacement loop of
`fix_harmonic_frequency` (lines 677-697). -/
structure P1Acc (V : Type) where
  cur : V
  resid : V
  cs : LinPars
  fNew : List ℚ
  aNew : List ℚ
  phNew : List ℚ
  rm : List ℕ

/-- Lines 677-697: for each distinct harmonic number `n` (ascending, as
`np.unique` produces), remove every candidate mapping to it from the
running residual, redetermine the trend, fix the frequency to
`n / p_orb`, refit amplitude and phase at it, and put the new sinusoid
into the residual; collect the new triples and the removal indices. -/
def fixPhase1Aux (o : Oracle V) [Add V] [Sub V] (p_orb : ℚ)
    (f_n a_n ph_n : List ℚ) (hc : List (ℕ × ℤ)) :
    List ℤ → P1Acc V → P1Acc V
  | [], acc => acc
  | n :: rest, acc =>
    let remove := (hc.filter (fun q => q.2 = n)).map (·.1)
    let mr := o.sum_sines (remove.map (fun i => f_n.getD i 0))
      (remove.map (fun i => a_n.getD i 0)) (remove.map (fun i => ph_n.getD i 0))
    let cur := acc.cur + mr
    let cs := o.linear_pars acc.resid
    let resid := cur - o.linear_curve cs
    let f_i := (n : ℚ) / p_orb
    let ap := o.ampl_phase_single resid f_i
    let mn := o.sum_sines [f_i] [ap.1] [ap.2]
    fixPhase1Aux o p_orb f_n a_n ph_n hc rest
      ⟨cur - mn, resid, cs, acc.fNew ++ [f_i], acc.aNew ++ [ap.1],
        acc.phNew ++ [ap.2], acc.rm ++ remove⟩

/-- The accumulator of the non-harmonic re-extraction loop of
`fix_harmonic_frequency` (lines 712-727). -/
structure P2Acc (V : Type) where
  fN : List ℚ
  aN : List ℚ
  phN : List ℚ
  cur : V
  cs : LinPars
  rm : List ℕ

/-- Lines 712-727: re-extract each non-harmonic sinusoid (local ascent on
the residual of the others) and mark it for removal when the new
frequency drifted out of `(f - freq_res, f + freq_res)`. -/
def fixPhase2Aux (o : Oracle V) [Add V] [Sub V] (t_ptp freq_res : ℚ) :
    List ℕ → P2Acc V → P2Acc V
  | [], acc => acc
  | i :: rest, acc =>
    let f_old := acc.fN.getD i 0
    let mr := o.sum_sines [f_old] [acc.aN.getD i 0] [acc.phN.getD i 0]
    let cur := acc.cur + mr
    let cs := o.linear_pars cur
    let resid := cur - o.linear_curve cs
    let fl := f_old - freq_res
    let fr := f_old + freq_res
    let t := extract_approx o resid t_ptp f_old
    let rm := if t.1 ≤ fl ∨ fr ≤ t.1 then acc.rm ++ [i] else acc.rm
    let mn := o.sum_sines [t.1] [t.2.1] [t.2.2]
    fixPhase2Aux o t_ptp freq_res rest
      ⟨acc.fN.set i t.1, acc.aN.set i t.2.1, acc.phN.set i t.2.2, cur - mn, cs, rm⟩

/-- `fix_harmonic_frequency(time, flux, p_orb, const, slope, f_n, a_n,
ph_n, i_chunks)` (lines 612-746).  Raises (`Except.error`) when no
harmonic candidate is found, before touching any model parameter.  The
final removal `np.delete(f_n, non_harm[remove_non_harm])` double-indexes
`non_harm` by the stored loop indices; the out-of-range case (on which
numpy would raise) is modelled by `getD _ 0`. -/
def fix_harmonic_frequency (o : Oracle V) [Add V] [Sub V] (flux : V)
    (t_ptp p_orb : ℚ) (const slope f_n a_n ph_n : List ℚ) (n_chunks : ℕ) :
    Except String (List ℚ × List ℚ × List ℚ × List ℚ × List ℚ) :=
  let freq_res := (3/2) / t_ptp
  let hc := find_harmonics_tolerance f_n p_orb (freq_res / 2)
  if hc = [] then Except.error "No harmonic frequencies found"
  else
    let n_sin := f_n.length
    let n_harm_init := hc.length
    let model_sinusoid := o.sum_sines f_n a_n ph_n
    let cur_resid := flux - model_sinusoid
    let resid := cur_resid - o.linear_curve (const, slope)
    let _bic_init := o.calc_bic resid (n_parameters n_chunks n_sin n_harm_init)
    let ns := uniqueSorted (hc.map (·.2))
    let r1 := fixPhase1Aux o p_orb f_n a_n ph_n hc ns
      ⟨cur_resid, resid, (const, slope), [], [], [], []⟩
    let f1 := deleteIdxs f_n r1.rm ++ r1.fNew
    let a1 := deleteIdxs a_n r1.rm ++ r1.aNew
    let ph1 := deleteIdxs ph_n r1.rm ++ r1.phNew
    let hc2 := find_harmonics_from_pattern f1 p_orb (1 / 10 ^ 9)
    let harmIdx2 := hc2.map (·.1)
    let non_harm := (List.range f1.length).filter (fun i => i ∉ harmIdx2)
    let r2 := fixPhase2Aux o t_ptp freq_res non_harm ⟨f1, a1, ph1, r1.cur, r1.cs, []⟩
    let del := r2.rm.map (fun i => non_harm.getD i 0)
    let f2 := deleteIdxs r2.fN del
    let a2 := deleteIdxs r2.aN del
    let ph2 := deleteIdxs r2.phN del
    let model_sinusoid2 := o.sum_sines f2 a2 ph2
    let cur2 := flux - model_sinusoid2
    let cs := o.linear_pars cur2
    Except.ok (cs.1, cs.2, f2, a2, ph2)

/-! ## `remove_sinusoids_single` (lines 749-850) -/

/-- The accumulator of `remove_sinusoids_single`: removed indices, the
running sinusoid-subtracted residual, the trend and the recorded BIC. -/
structure RAcc (V : Type) where
  rm : List ℕ
  cur : V
  cs : LinPars
  bp : ℚ

/-- One trial of the `remove_sinusoids_single` pass (lines 816-836): for
a sinusoid not yet removed, evaluate the BIC of the model without it
(trend refit on the residual) and remove it when the BIC improves after
2-decimal rounding. -/
def removeStep (o : Oracle V) [Add V] [Sub V] (f_n a_n ph_n : List ℚ)
    (harmIdx : List ℕ) (n_chunks : ℕ) (acc : RAcc V) (i : ℕ) : RAcc V :=
  if i ∈ acc.rm then acc else
  let mr := o.sum_sines [f_n.getD i 0] [a_n.getD i 0] [ph_n.getD i 0]
  let resid := acc.cur + mr
  let cs := o.linear_pars resid
  let resid2 := resid - o.linear_curve cs
  let n_harm_i := harmIdx.length - (acc.rm.filter (fun h => h ∈ harmIdx)).length
    - (if i ∈ harmIdx then 1 else 0)
  let n_sin_i := f_n.length - acc.rm.length - 1 - n_harm_i
  let bic := o.calc_bic resid2 (n_parameters n_chunks n_sin_i n_harm_i)
  if round2 (acc.bp - bic) > 0 then ⟨acc.rm ++ [i], acc.cur + mr, cs, bic⟩
  else ⟨acc.rm, acc.cur, cs, acc.bp⟩

/-- One full pass of `remove_sinusoids_single` (lines 816-836). -/
def removePass (o : Oracle V) [Add V] [Sub V] (f_n a_n ph_n : List ℚ)
    (harmIdx : List ℕ) (n_chunks : ℕ) (acc0 : RAcc V) : RAcc V :=
  (List.range f_n.length).foldl (removeStep o f_n a_n ph_n harmIdx n_chunks) acc0

/-- The outer `while` of `remove_sinusoids_single` (line 814): repeat full
passes while the removal list grows.  It can grow at most `n_sin` times,
so `n_sin + 1` passes of fuel reproduce the source loop exactly. -/
def removeLoop (o : Oracle V) [Add V] [Sub V] (f_n a_n ph_n : List ℚ)
    (harmIdx : List ℕ) (n_chunks : ℕ) : ℕ → RAcc V → RAcc V
  | 0, acc => acc
  | fuel + 1, acc =>
    let acc2 := removePass o f_n a_n ph_n harmIdx n_chunks acc
    if acc.rm.length < acc2.rm.length then
      removeLoop o f_n a_n ph_n harmIdx n_chunks fuel acc2
    else acc2

/-- `remove_sinusoids_single(time, flux, p_orb, const, slope, f_n, a_n,
ph_n, i_chunks)` (lines 749-850): greedily delete individually
insignificant sinusoids, then re-determine the trend and return the
pruned arrays. -/
def remove_sinusoids_single (o : Oracle V) [Add V] [Sub V] (flux : V)
    (p_orb : ℚ) (const slope f_n a_n ph_n : List ℚ) (n_chunks : ℕ) :
    LinPars × List ℚ × List ℚ × List ℚ :=
  let harm := find_harmonics_from_pattern f_n p_orb (1 / 10 ^ 9)
  let harmIdx := harm.map (·.1)
  let model_sinusoid := o.sum_sines f_n a_n ph_n
  let cur := flux - model_sinusoid
  let resid := cur - o.linear_curve (const, slope)
  let bp := o.calc_bic resid (n_parameters n_chunks f_n.length harmIdx.length)
  let r := removeLoop o f_n a_n ph_n harmIdx n_chunks (f_n.length + 1)
    ⟨[], cur, (const, slope), bp⟩
  let cs := o.linear_pars r.cur
  (cs, deleteIdxs f_n r.rm, deleteIdxs a_n r.rm, deleteIdxs ph_n r.rm)

/-! ## Concrete oracle instantiations

Simple closed instances of the external services, used to evaluate the
embedded routines on concrete inputs.  `oA` is the base instance: the
periodogram always reports a single grid point at the low end of the
requested interval with amplitude 1 and phase 0, the linear fit is empty,
and the BIC drops by 3 per stored sinusoid. -/

/-- Base concrete oracle over `V = ℚ`. -/
def oA : Oracle ℚ where
  scargle := fun _ a _ _ => ([a], [1])
  scargle_parallel := fun _ a _ _ => ([a], [1])
  noise_spectrum := fun fr _ _ => fr.map (fun _ => 1)
  ampl_phase_single := fun _ _ => (1, 0)
  ampl_phase := fun _ fs => (fs.map (fun _ => 1), fs.map (fun _ => 0))
  noise_at_freq := fun fs _ _ => fs.map (fun _ => 1)
  uphill_local_max := fun _ _ seeds => seeds.map (fun _ => 0)
  residual := fun _ => 0
  linFit := fun _ => ([], [])
  bic := fun m => -3 * (m.n_sin : ℚ)
  f_within_rayleigh := fun _ _ _ => []
  fit_multi := fun m => (m.lin, m.activeTriples)
  sum_sines := fun _ _ _ => 0
  linear_pars := fun _ => ([], [])
  linear_curve := fun _ => 0
  calc_bic := fun _ _ => 0

/-- Oracle with a constant BIC: every tentative change is BIC-neutral. -/
def oFlat : Oracle ℚ := { oA with bic := fun _ => 0, calc_bic := fun _ _ => 0 }

/-- Oracle whose BIC drops by exactly 1.9998 once a sinusoid is stored. -/
def oNear2 : Oracle ℚ :=
  { oA with bic := fun m => if m.n_sin = 0 then 0 else -(19998/10000 : ℚ) }

/-- Oracle with a constant BIC and a visibly nonzero linear fit. -/
def oLin : Oracle ℚ :=
  { oFlat with linFit := fun _ => ([7], [8]) }

/-- Oracle whose periodogram always reports the single frequency
`3/2 + 10⁻¹⁰` (within the harmonic-classification tolerance of the
`p_orb = 2` harmonic `3/2`, but not equal to it). -/
def oC6 : Oracle ℚ :=
  { oFlat with
    scargle := fun _ _ _ _ => ([3 / 2 + 1 / 10 ^ 10], [1])
    scargle_parallel := fun _ _ _ _ => ([3 / 2 + 1 / 10 ^ 10], [1]) }

/-- The phase-1 accumulator of the concrete `fix_harmonic_frequency` run
on the single exact harmonic `f_n = [1]`, `p_orb = 2`. -/
def p1C6 : P1Acc ℚ := ⟨0, 0, ([], []), [1], [1], [0], [0]⟩

/-- The phase-2 accumulator of the same concrete run (its worklist is
empty, so phase 2 is the identity). -/
def p2C6 : P2Acc ℚ := ⟨[1], [1], [0], 0, ([], []), []⟩

/-- The returned tuple of the same concrete run. -/
def rC6 : List ℚ × List ℚ × List ℚ × List ℚ × List ℚ := ([], [], [1], [1], [0])

/-- A context with a 10-day baseline. -/
def ctx10 : Ctx := ⟨10, 1, 2, 3/20⟩

/-- The empty model. -/
def mEmpty : TSState := ⟨[], ([], [])⟩

/-- Parameters with a BIC threshold of `1.9999`, BIC stop criterion,
amplitude selection, no count limit, no joint fit, no replacement. -/
def pC1 : XParams := ⟨19999/10000, 0, StopCrit.bic, Select.a, 0, false, false, 2⟩

/-- The initial loop state of the `pC1` run on the empty model. -/
def stC1 : ExtractLoopSt := extractInit oNear2 pC1 mEmpty

/-- Default parameters: `bic_thr = 2`, BIC criterion, amplitude
selection, unbounded, no joint fit, no per-step replacement. -/
def pC2 : XParams := ⟨2, 0, StopCrit.bic, Select.a, 0, false, false, 2⟩

/-- Hybrid-selection parameters. -/
def pHyb : XParams := ⟨2, 0, StopCrit.bic, Select.hybrid, 0, false, false, 2⟩

/-- A model holding one sinusoid and a trend that is not the OLS fit the
`oLin` oracle computes. -/
def mTrend : TSState := ⟨[⟨1, 1/2, 0, false, false⟩], ([0], [0])⟩

/-- A loop state whose previous iteration was a rejection with the hybrid
switch still armed. -/
def stArmed : ExtractLoopSt := ⟨mEmpty, Select.a, true, 0, false, true⟩

/-- A model with two close non-harmonic sinusoids (1 and 1.01 cycles/day,
closer than half a resolution unit of the `ctx10` context). -/
def mC5 : TSState :=
  ⟨[⟨1, 1, 0, false, false⟩, ⟨101/100, 1, 0, false, false⟩], ([], [])⟩

/-- The `mC5` model with both sinusoids soft-removed and the trend refit. -/
def mC5ex : TSState := (mC5.excludeSins [0, 1]).updateLinear oFlat

/-- The single replacement candidate `replace_subset` extracts for the
`mC5` pair. -/
def mC5cand : ℚ × ℚ × ℚ :=
  extract_local oFlat (oFlat.residual mC5ex) ctx10.t_ptp
    (min 1 (101/100) - 1 / ctx10.t_ptp) (max 1 (101/100) + 1 / ctx10.t_ptp)

/-- The tentative model with the pair replaced by the candidate. -/
def mC5try : TSState := (mC5ex.addSins [mC5cand]).updateLinear oFlat

/-- The sinusoid the `oA` oracle extracts on every iteration of a
`ctx10` run. -/
def sinStar : Sin := ⟨99/100, 1, 0, false, false⟩

/-- The model after `k` accepted iterations of the `oA`/`pC2` run. -/
def c8Model (k : ℕ) : TSState := ⟨List.replicate k sinStar, ([], [])⟩

/-- The loop state after `k` accepted iterations of the `oA`/`pC2` run. -/
def c8LS (k : ℕ) : ExtractLoopSt :=
  ⟨c8Model k, Select.a, false, -3 * (k : ℚ), true, decide ((k : ℤ) < 10 ^ 6)⟩

/-! ## Properties of the rounding -/

theorem ratFloor_eq_floor (q : ℚ) : ratFloor q = ⌊q⌋ := Rat.floor_def.symm

theorem ratRound_eq_round (q : ℚ) : ratRound q = round q := by
  rw [ratRound, ratFloor_eq_floor, round_eq]

theorem abs_roundHalfEven_sub_le (q : ℚ) : |(roundHalfEven q : ℚ) - q| ≤ 1/2 := by
  have h0 : (0 : ℚ) ≤ q - ⌊q⌋ := by
    have := Int.floor_le q
    linarith
  have h1 : q - ⌊q⌋ < 1 := by
    have := Int.lt_floor_add_one q
    linarith
  unfold roundHalfEven
  rw [ratFloor_eq_floor]
  split_ifs with hA hB hC
  · rw [abs_sub_comm, abs_of_nonneg h0]
    linarith
  · push_cast
    rw [abs_of_nonneg (by linarith)]
    linarith
  · rw [abs_sub_comm, abs_of_nonneg h0]
    linarith
  · push_cast
    rw [abs_of_nonneg (by linarith)]
    linarith

theorem abs_round2_sub_le (q : ℚ) : |round2 q - q| ≤ 1/200 := by
  have h := abs_roundHalfEven_sub_le (100 * q)
  rw [abs_le] at h ⊢
  unfold round2
  constructor
  · linarith [h.1]
  · linarith [h.2]

theorem lt_of_lt_round2 {t q : ℚ} (h : t < round2 q) : t - 1/200 < q := by
  have h2 := abs_round2_sub_le q
  rw [abs_le] at h2
  linarith [h2.1]

theorem pos_of_lt_round2 {t q : ℚ} (ht : 0 ≤ t) (h : t < round2 q) : 0 < q := by
  have h1 : (0 : ℚ) < (roundHalfEven (100 * q) : ℚ) / 100 := lt_of_le_of_lt ht h
  have h2 : (0 : ℚ) < (roundHalfEven (100 * q) : ℚ) := by
    by_contra hc
    push_neg at hc
    have : (roundHalfEven (100 * q) : ℚ) / 100 ≤ 0 := by
      apply div_nonpos_of_nonpos_of_nonneg hc
      norm_num
    linarith
  have h3 : (1 : ℤ) ≤ roundHalfEven (100 * q) := by exact_mod_cast h2
  have h4 := abs_roundHalfEven_sub_le (100 * q)
  rw [abs_le] at h4
  have h5 : (1 : ℚ) ≤ (roundHalfEven (100 * q) : ℚ) := by exact_mod_cast h3
  nlinarith [h4.1, h4.2]

/-! ## Claim C9: the scan window of `extract_approx` -/

/-- C9 (counterexample).  At `t_tot = 10`, `f_approx = 5` the upper edge
of the scan window of `extract_approx` is `5.25`, not the
`5 + 25 * (1.5/10) = 8.75` the claim's ±25-frequency-resolution-unit
window (`f_resolution = 1.5/t_tot`) would give. -/
theorem c9_window_not_resolution_units :
    (approx_window 10 5).2 = 21/4 ∧ (5 : ℚ) + 25 * ((3/2)/10) = 35/4 ∧
      ((21:ℚ)/4 ≠ 35/4) := by
  refine ⟨by norm_num [approx_window], by norm_num, by norm_num⟩

/-- C9 (amended): `extract_approx` scans `[max(f_approx - 25*df, df/10),
f_approx + 25*df]` where `df = 0.1/t_tot` is the periodogram grid step,
i.e. a half-width of `2.5/t_tot`, which is `5/3` of one frequency
resolution unit `1.5/t_tot` — not 25 resolution units. -/
theorem c9_window_is_25_grid_steps (t f : ℚ) (ht : 0 < t) :
    (approx_window t f).1 = max (f - (5/2)/t) (1/(100*t)) ∧
      (approx_window t f).2 = f + (5/2)/t ∧
      (5/2)/t = (5/3) * ((3/2)/t) := by
  have hne : t ≠ 0 := ne_of_gt ht
  have e1 : 25 * ((1/10)/t) = (5/2)/t := by
    field_simp
    ring
  have e2 : ((1/10)/t)/10 = 1/(100*t) := by
    field_simp
    ring
  refine ⟨?_, ?_, ?_⟩
  · simp only [approx_window, e1, e2]
  · simp only [approx_window, e1]
  · field_simp

/-- C9 witness: the amended statement evaluated at `t_tot = 10`,
`f_approx = 5`. -/
theorem c9_window_is_25_grid_steps_witness :
    (0 : ℚ) < 10 ∧
      ((approx_window 10 5).1 = max (5 - (5/2)/10) (1/(100*10)) ∧
        (approx_window 10 5).2 = 5 + (5/2)/10 ∧
        ((5:ℚ)/2)/10 = (5/3) * ((3/2)/10)) :=
  ⟨by norm_num, c9_window_is_25_grid_steps 10 5 (by norm_num)⟩

/-! ## Claim C1: the BIC acceptance rule of the prewhitening loop -/

/-- C1 (amended).  With `stop_crit = 'bic'` an iteration of
`extract_sinusoids` accepts its tentative candidate exactly when the BIC
drop, rounded to 2 decimals, exceeds `bic_thr`; an accepted step records
the new BIC, which is lower than the previous recorded BIC by more than
`bic_thr - 0.005` (hence the recorded BIC strictly decreases whenever
`bic_thr ≥ 0`); a rejected step leaves the recorded BIC unchanged.  The
unrounded drop need not exceed `bic_thr` itself (see the
counterexample). -/
theorem c1_bic_acceptance (o : Oracle V) (ctx : Ctx) (p : XParams) (n0 : ℕ)
    (st : ExtractLoopSt) (h : p.stop_crit = StopCrit.bic) :
    ((extractStep o ctx p n0 st).cond1 = true ↔
      p.bic_thr < round2 (st.bicPrev - o.bic (extractBody o ctx p st).1)) ∧
    ((extractStep o ctx p n0 st).cond1 = true →
      (extractStep o ctx p n0 st).bicPrev = o.bic (extractBody o ctx p st).1 ∧
      p.bic_thr - 1/200 < st.bicPrev - (extractStep o ctx p n0 st).bicPrev ∧
      (0 ≤ p.bic_thr → (extractStep o ctx p n0 st).bicPrev < st.bicPrev)) ∧
    ((extractStep o ctx p n0 st).cond1 = false →
      (extractStep o ctx p n0 st).bicPrev = st.bicPrev) := by
  obtain ⟨bt, snrt, sc, sel, ne, fes, res, rf⟩ := p
  cases h
  by_cases hC : bt < round2 (st.bicPrev -
      o.bic (extractBody o ctx ⟨bt, snrt, StopCrit.bic, sel, ne, fes, res, rf⟩ st).1)
  · refine ⟨by simp [extractStep, hC], fun _ => ⟨by simp [extractStep, hC], ?_, ?_⟩,
      by simp [extractStep, hC]⟩
    · have h1 := lt_of_lt_round2 hC
      simp only [extractStep, hC, decide_eq_true_eq, if_true, decide_True]
      simp [hC]
      linarith
    · intro ht
      have h2 := pos_of_lt_round2 ht hC
      simp only [extractStep]
      simp [hC]
      linarith
  · refine ⟨by simp [extractStep, hC], fun hcc => absurd hcc (by simp [extractStep, hC]),
      fun _ => by simp [extractStep, hC]⟩

/-- C1 witness: the amended statement evaluated on a concrete run
(`bic_thr = 1.9999`, empty initial model, `oNear2` oracle). -/
theorem c1_bic_acceptance_witness :
    pC1.stop_crit = StopCrit.bic ∧
    (((extractStep oNear2 ctx10 pC1 0 stC1).cond1 = true ↔
      pC1.bic_thr < round2 (stC1.bicPrev - oNear2.bic (extractBody oNear2 ctx10 pC1 stC1).1)) ∧
    ((extractStep oNear2 ctx10 pC1 0 stC1).cond1 = true →
      (extractStep oNear2 ctx10 pC1 0 stC1).bicPrev = oNear2.bic (extractBody oNear2 ctx10 pC1 stC1).1 ∧
      pC1.bic_thr - 1/200 < stC1.bicPrev - (extractStep oNear2 ctx10 pC1 0 stC1).bicPrev ∧
      (0 ≤ pC1.bic_thr → (extractStep oNear2 ctx10 pC1 0 stC1).bicPrev < stC1.bicPrev)) ∧
    ((extractStep oNear2 ctx10 pC1 0 stC1).cond1 = false →
      (extractStep oNear2 ctx10 pC1 0 stC1).bicPrev = stC1.bicPrev)) :=
  ⟨rfl, c1_bic_acceptance oNear2 ctx10 pC1 0 stC1 rfl⟩

/-- C1 (counterexample).  On a concrete run with `bic_thr = 1.9999` the
first candidate is accepted — its rounded BIC drop is `2.00` — although
the actual BIC drop is `1.9998`, which does not exceed `bic_thr`: an
accepted step need not decrease the BIC by more than `bic_thr`. -/
theorem c1_accepted_step_below_threshold :
    (extractStep oNear2 ctx10 pC1 0 stC1).cond1 = true ∧
    ¬(pC1.bic_thr <
        stC1.bicPrev - oNear2.bic (extractBody oNear2 ctx10 pC1 stC1).1) := by
  constructor
  · with_unfolding_all decide
  · with_unfolding_all decide

/-! ## Facts about the model operations -/

theorem setSins_f_n (s : TSState) (ts : List Triple) :
    (s.setSins ts).f_n = ts.map (fun t => t.1) := by
  simp only [TSState.setSins, TSState.f_n, List.map_map]
  have h : ((ts.zip (List.range ts.length)).map Prod.fst) = ts :=
    List.map_fst_zip ts _ (by simp)
  calc ((ts.zip (List.range ts.length)).map
        ((fun x : Sin => x.f) ∘ fun p => ⟨p.1.1, p.1.2.1, p.1.2.2, false,
          (s.sins.getD p.2 default).harm⟩))
      = ((ts.zip (List.range ts.length)).map Prod.fst).map (fun t => t.1) := by
        rw [List.map_map]
        rfl
    _ = ts.map (fun t => t.1) := by rw [h]

theorem setSins_a_n (s : TSState) (ts : List Triple) :
    (s.setSins ts).a_n = ts.map (fun t => t.2.1) := by
  simp only [TSState.setSins, TSState.a_n, List.map_map]
  have h : ((ts.zip (List.range ts.length)).map Prod.fst) = ts :=
    List.map_fst_zip ts _ (by simp)
  calc ((ts.zip (List.range ts.length)).map
        ((fun x : Sin => x.a) ∘ fun p => ⟨p.1.1, p.1.2.1, p.1.2.2, false,
          (s.sins.getD p.2 default).harm⟩))
      = ((ts.zip (List.range ts.length)).map Prod.fst).map (fun t => t.2.1) := by
        rw [List.map_map]
        rfl
    _ = ts.map (fun t => t.2.1) := by rw [h]

theorem setSins_ph_n (s : TSState) (ts : List Triple) :
    (s.setSins ts).ph_n = ts.map (fun t => t.2.2) := by
  simp only [TSState.setSins, TSState.ph_n, List.map_map]
  have h : ((ts.zip (List.range ts.length)).map Prod.fst) = ts :=
    List.map_fst_zip ts _ (by simp)
  calc ((ts.zip (List.range ts.length)).map
        ((fun x : Sin => x.ph) ∘ fun p => ⟨p.1.1, p.1.2.1, p.1.2.2, false,
          (s.sins.getD p.2 default).harm⟩))
      = ((ts.zip (List.range ts.length)).map Prod.fst).map (fun t => t.2.2) := by
        rw [List.map_map]
        rfl
    _ = ts.map (fun t => t.2.2) := by rw [h]

theorem setSins_n_sin (s : TSState) (ts : List Triple) :
    (s.setSins ts).n_sin = ts.length := by
  simp [TSState.setSins, TSState.n_sin]

theorem setSins_activeTriples (s : TSState) (ts : List Triple) :
    (s.setSins ts).activeTriples = ts := by
  simp only [TSState.setSins, TSState.activeTriples]
  rw [List.filter_eq_self.2 (by
    intro a ha
    simp only [List.mem_map] at ha
    obtain ⟨p, _, hp⟩ := ha
    rw [← hp]
    rfl)]
  have h : ((ts.zip (List.range ts.length)).map Prod.fst) = ts :=
    List.map_fst_zip ts _ (by simp)
  calc ((ts.zip (List.range ts.length)).map
        (fun p : Triple × ℕ => (⟨p.1.1, p.1.2.1, p.1.2.2, false,
          (s.sins.getD p.2 default).harm⟩ : Sin))).map (fun x => (x.f, x.a, x.ph))
      = ((ts.zip (List.range ts.length)).map Prod.fst) := by
        rw [List.map_map]
        rfl
    _ = ts := h

theorem triples_map_f (s : TSState) : s.triples.map (fun t => t.1) = s.f_n := by
  simp [TSState.triples, TSState.f_n, List.map_map]

theorem triples_map_a (s : TSState) : s.triples.map (fun t => t.2.1) = s.a_n := by
  simp [TSState.triples, TSState.a_n, List.map_map]

theorem triples_map_ph (s : TSState) : s.triples.map (fun t => t.2.2) = s.ph_n := by
  simp [TSState.triples, TSState.ph_n, List.map_map]

theorem triples_length (s : TSState) : s.triples.length = s.n_sin := by
  simp [TSState.triples, TSState.n_sin]

theorem updateLinear_sins (s : TSState) (o : Oracle V) :
    (s.updateLinear o).sins = s.sins := rfl

theorem updateLinear_lin (s : TSState) (o : Oracle V) :
    (s.updateLinear o).lin = o.linFit s.activeTriples := rfl

/-! ## Claim C2: rejection restores the snapshot -/

/-- The model produced by a rejecting iteration: the snapshot triples are
written back and the trend is recomputed by the linear fit. -/
theorem extractStep_model_of_reject (o : Oracle V) (ctx : Ctx) (p : XParams)
    (n0 : ℕ) (st : ExtractLoopSt)
    (h : (extractStep o ctx p n0 st).cond1 = false) :
    (extractStep o ctx p n0 st).model =
      (((extractBody o ctx p st).1.setSins st.model.triples).updateLinear o) := by
  simp only [extractStep] at h ⊢
  rw [h]
  simp

/-- C2 (amended).  When an iteration of `extract_sinusoids` rejects its
candidate, the returned sinusoid parameter arrays equal the pre-step
arrays exactly (they are restored from the snapshot), the stored
sinusoid count is restored, and the linear trend is *recomputed* by the
per-chunk least-squares fit on the restored sinusoid set — so the trend
equals the pre-step trend exactly iff the pre-step trend was already that
fit (rollback does not snapshot the trend; see the counterexample). -/
theorem c2_rejection_restores_sinusoid_arrays (o : Oracle V) (ctx : Ctx)
    (p : XParams) (n0 : ℕ) (st : ExtractLoopSt)
    (h : (extractStep o ctx p n0 st).cond1 = false) :
    (extractStep o ctx p n0 st).model.f_n = st.model.f_n ∧
    (extractStep o ctx p n0 st).model.a_n = st.model.a_n ∧
    (extractStep o ctx p n0 st).model.ph_n = st.model.ph_n ∧
    (extractStep o ctx p n0 st).model.n_sin = st.model.n_sin ∧
    (extractStep o ctx p n0 st).model.lin = o.linFit st.model.triples ∧
    (st.model.lin = o.linFit st.model.triples →
      (extractStep o ctx p n0 st).model.lin = st.model.lin) := by
  rw [extractStep_model_of_reject o ctx p n0 st h]
  refine ⟨?_, ?_, ?_, ?_, ?_, ?_⟩
  · show ((extractBody o ctx p st).1.setSins st.model.triples).f_n = _
    rw [setSins_f_n, triples_map_f]
  · show ((extractBody o ctx p st).1.setSins st.model.triples).a_n = _
    rw [setSins_a_n, triples_map_a]
  · show ((extractBody o ctx p st).1.setSins st.model.triples).ph_n = _
    rw [setSins_ph_n, triples_map_ph]
  · show ((extractBody o ctx p st).1.setSins st.model.triples).n_sin = _
    rw [setSins_n_sin, triples_length]
  · rw [updateLinear_lin, setSins_activeTriples]
  · intro hl
    rw [updateLinear_lin, setSins_activeTriples, hl]

/-- C2 witness: a concrete rejecting step (flat BIC, `bic_thr = 2`)
evaluated on a one-sinusoid model whose trend equals the oracle fit. -/
theorem c2_rejection_restores_sinusoid_arrays_witness :
    (extractStep oFlat ctx10 pC2 0 (extractInit oFlat pC2 mEmpty)).cond1 = false ∧
    ((extractStep oFlat ctx10 pC2 0 (extractInit oFlat pC2 mEmpty)).model.f_n =
        (extractInit oFlat pC2 mEmpty).model.f_n ∧
      (extractStep oFlat ctx10 pC2 0 (extractInit oFlat pC2 mEmpty)).model.a_n =
        (extractInit oFlat pC2 mEmpty).model.a_n ∧
      (extractStep oFlat ctx10 pC2 0 (extractInit oFlat pC2 mEmpty)).model.ph_n =
        (extractInit oFlat pC2 mEmpty).model.ph_n ∧
      (extractStep oFlat ctx10 pC2 0 (extractInit oFlat pC2 mEmpty)).model.n_sin =
        (extractInit oFlat pC2 mEmpty).model.n_sin ∧
      (extractStep oFlat ctx10 pC2 0 (extractInit oFlat pC2 mEmpty)).model.lin =
        oFlat.linFit (extractInit oFlat pC2 mEmpty).model.triples ∧
      ((extractInit oFlat pC2 mEmpty).model.lin =
          oFlat.linFit (extractInit oFlat pC2 mEmpty).model.triples →
        (extractStep oFlat ctx10 pC2 0 (extractInit oFlat pC2 mEmpty)).model.lin =
          (extractInit oFlat pC2 mEmpty).model.lin)) :=
  ⟨by with_unfolding_all decide,
    c2_rejection_restores_sinusoid_arrays oFlat ctx10 pC2 0
      (extractInit oFlat pC2 mEmpty) (by with_unfolding_all decide)⟩

/-- C2 (counterexample).  A call of `extract_sinusoids` that rejects its
only candidate returns the sinusoid arrays bit-for-bit, but *not* the
linear trend: with a pre-call trend `([0],[0])` that differs from the
least-squares fit `([7],[8])`, the returned trend is the recomputed fit,
not the pre-call value — rollback recomputes `(const, slope)` rather than
restoring a snapshot of them. -/
theorem c2_rejection_recomputes_trend :
    (extract_sinusoids oLin ctx10 pC2 5 mTrend).f_n = mTrend.f_n ∧
    (extract_sinusoids oLin ctx10 pC2 5 mTrend).a_n = mTrend.a_n ∧
    (extract_sinusoids oLin ctx10 pC2 5 mTrend).ph_n = mTrend.ph_n ∧
    (extract_sinusoids oLin ctx10 pC2 5 mTrend).lin ≠ mTrend.lin := by
  refine ⟨?_, ?_, ?_, ?_⟩ <;> with_unfolding_all decide

/-! ## Claim C3: the hybrid selection switch -/

theorem extractStep_sel (o : Oracle V) (ctx : Ctx) (p : XParams) (n0 : ℕ)
    (st : ExtractLoopSt) : (extractStep o ctx p n0 st).sel = (stepSel st).1 := rfl

theorem extractStep_switch (o : Oracle V) (ctx : Ctx) (p : XParams) (n0 : ℕ)
    (st : ExtractLoopSt) :
    (extractStep o ctx p n0 st).switch = (stepSel st).2 := rfl

theorem extractStep_cond2 (o : Oracle V) (ctx : Ctx) (p : XParams) (n0 : ℕ)
    (st : ExtractLoopSt) :
    (extractStep o ctx p n0 st).cond2 =
      decide (((extractStep o ctx p n0 st).model.n_sin : ℤ) - (n0 : ℤ) < capOf p) :=
  rfl

theorem stepSel_of_no_switch (st : ExtractLoopSt) (h : st.switch = false) :
    stepSel st = (st.sel, false) := by
  simp [stepSel, h]

theorem stepSel_of_armed_accept (st : ExtractLoopSt) (h1 : st.switch = true)
    (h2 : st.cond1 = true) : stepSel st = (st.sel, true) := by
  simp [stepSel, h1, h2]

theorem stepSel_of_armed_reject (st : ExtractLoopSt) (h1 : st.switch = true)
    (h2 : st.cond1 = false) : stepSel st = (Select.sn, false) := by
  simp [stepSel, h1, h2]

theorem extractStep_n_sin_of_reject (o : Oracle V) (ctx : Ctx) (p : XParams)
    (n0 : ℕ) (st : ExtractLoopSt)
    (h : (extractStep o ctx p n0 st).cond1 = false) :
    (extractStep o ctx p n0 st).model.n_sin = st.model.n_sin := by
  rw [extractStep_model_of_reject o ctx p n0 st h]
  show ((extractBody o ctx p st).1.setSins st.model.triples).n_sin = _
  rw [setSins_n_sin, triples_length]

theorem extractLoop_of_guard_false (o : Oracle V) (ctx : Ctx) (p : XParams)
    (n0 fuel : ℕ) (st : ExtractLoopSt) (h : loopGuard st = false) :
    extractLoop o ctx p n0 fuel st = st := by
  cases fuel with
  | zero => rfl
  | succ n => simp [extractLoop, h]

/-- C3.  In a hybrid-selection run of `extract_sinusoids` the selection
method starts as amplitude with the switch armed; a disarmed switch never
re-arms (so at most one switch happens in any run); while iterations
accept, the selection method is unchanged; at the first rejection the
switch fires — the following iteration (which is guaranteed to run, since
rollback restores the sinusoid count and hence the count-limit condition)
runs with the signal-to-noise selection and a disarmed switch; and any
rejection that occurs once the switch is disarmed makes the loop guard
false, terminating the loop. -/
theorem c3_hybrid_switches_once (o : Oracle V) (ctx : Ctx) (p : XParams)
    (n0 : ℕ) :
    (∀ m : TSState, p.select = Select.hybrid →
      (extractInit o p m).sel = Select.a ∧ (extractInit o p m).switch = true) ∧
    (∀ st : ExtractLoopSt, st.switch = false →
      (extractStep o ctx p n0 st).switch = false ∧
      (extractStep o ctx p n0 st).sel = st.sel) ∧
    (∀ st : ExtractLoopSt, st.switch = true → st.cond1 = true →
      (extractStep o ctx p n0 st).sel = st.sel ∧
      (extractStep o ctx p n0 st).switch = true) ∧
    (∀ st : ExtractLoopSt, st.switch = true → st.cond1 = false →
      (extractStep o ctx p n0 st).sel = Select.sn ∧
      (extractStep o ctx p n0 st).switch = false) ∧
    (∀ st : ExtractLoopSt, st.switch = true → st.cond1 = true →
      (extractStep o ctx p n0 st).cond1 = false →
      ((st.model.n_sin : ℤ) - (n0 : ℤ) < capOf p →
        loopGuard (extractStep o ctx p n0 st) = true)) ∧
    (∀ st : ExtractLoopSt, st.switch = false →
      (extractStep o ctx p n0 st).cond1 = false →
      loopGuard (extractStep o ctx p n0 st) = false) ∧
    (∀ (st : ExtractLoopSt) (fuel : ℕ), loopGuard st = false →
      extractLoop o ctx p n0 fuel st = st) := by
  refine ⟨?_, ?_, ?_, ?_, ?_, ?_, ?_⟩
  · intro m hp
    constructor <;> simp [extractInit, hp]
  · intro st h
    rw [extractStep_switch, extractStep_sel, stepSel_of_no_switch st h]
    exact ⟨rfl, rfl⟩
  · intro st h1 h2
    rw [extractStep_sel, extractStep_switch, stepSel_of_armed_accept st h1 h2]
    exact ⟨rfl, rfl⟩
  · intro st h1 h2
    rw [extractStep_sel, extractStep_switch, stepSel_of_armed_reject st h1 h2]
    exact ⟨rfl, rfl⟩
  · intro st h1 h2 hrej hcap
    have hsw : (extractStep o ctx p n0 st).switch = true := by
      rw [extractStep_switch, stepSel_of_armed_accept st h1 h2]
    have hn : (extractStep o ctx p n0 st).model.n_sin = st.model.n_sin :=
      extractStep_n_sin_of_reject o ctx p n0 st hrej
    have hc2 : (extractStep o ctx p n0 st).cond2 = true := by
      rw [extractStep_cond2, hn]
      simpa using hcap
    simp [loopGuard, hrej, hsw, hc2]
  · intro st h1 hrej
    have hsw : (extractStep o ctx p n0 st).switch = false := by
      rw [extractStep_switch, stepSel_of_no_switch st h1]
    simp [loopGuard, hrej, hsw]
  · intro st fuel h
    exact extractLoop_of_guard_false o ctx p n0 fuel st h

/-- C3 witness: the hybrid initialisation and the switch firing at a
concrete rejected state. -/
theorem c3_hybrid_switches_once_witness :
    (pHyb.select = Select.hybrid ∧
      (extractInit oFlat pHyb mEmpty).sel = Select.a ∧
      (extractInit oFlat pHyb mEmpty).switch = true) ∧
    (stArmed.switch = true ∧ stArmed.cond1 = false ∧
      (extractStep oFlat ctx10 pHyb 0 stArmed).sel = Select.sn ∧
      (extractStep oFlat ctx10 pHyb 0 stArmed).switch = false) :=
  ⟨⟨rfl, ((c3_hybrid_switches_once oFlat ctx10 pHyb 0).1 mEmpty rfl).1,
      ((c3_hybrid_switches_once oFlat ctx10 pHyb 0).1 mEmpty rfl).2⟩,
    ⟨rfl, rfl,
      ((c3_hybrid_switches_once oFlat ctx10 pHyb 0).2.2.2.1 stArmed rfl rfl).1,
      ((c3_hybrid_switches_once oFlat ctx10 pHyb 0).2.2.2.1 stArmed rfl rfl).2⟩⟩

/-! ## Claim C8: `n_extract = 0` and the `10^6` cap -/

/-- C8 (amended).  Passing `n_extract = 0` does not remove the
extraction-count limit: it sets it to `10^6` ("a lot"), and an iteration
turns the count-limit condition false exactly when the stored sinusoid
count has grown by at least `10^6` over the initial count — below that
the loop can only stop via the stop criterion. -/
theorem c8_zero_cap_is_million (o : Oracle V) (ctx : Ctx) (p : XParams)
    (n0 : ℕ) (st : ExtractLoopSt) (h : p.n_extract = 0) :
    capOf p = 10 ^ 6 ∧
    ((extractStep o ctx p n0 st).cond2 = false ↔
      (10 ^ 6 : ℤ) ≤ ((extractStep o ctx p n0 st).model.n_sin : ℤ) - (n0 : ℤ)) := by
  have hc : capOf p = 10 ^ 6 := by simp [capOf, h]
  refine ⟨hc, ?_⟩
  rw [extractStep_cond2, hc]
  simp [not_lt]

/-- C8 witness: the amended statement at concrete inputs. -/
theorem c8_zero_cap_is_million_witness :
    pC2.n_extract = 0 ∧
    (capOf pC2 = 10 ^ 6 ∧
      ((extractStep oFlat ctx10 pC2 0 stArmed).cond2 = false ↔
        (10 ^ 6 : ℤ) ≤ ((extractStep oFlat ctx10 pC2 0 stArmed).model.n_sin : ℤ) - (0 : ℤ))) :=
  ⟨rfl, c8_zero_cap_is_million oFlat ctx10 pC2 0 stArmed rfl⟩

theorem oA_residual (m : TSState) : oA.residual m = 0 := rfl

theorem oA_fwr (n : ℕ) (f : List ℚ) (r : ℚ) : oA.f_within_rayleigh n f r = [] := rfl

theorem c8LS_model (k : ℕ) : (c8LS k).model = c8Model k := rfl

theorem c8_cand :
    extract_single oA (0 : ℚ) ctx10.t_ptp ctx10.pd_f0 ctx10.pd_fn Select.a =
      ((99 : ℚ)/100, (1 : ℚ), (0 : ℚ)) := by
  with_unfolding_all decide

theorem c8_body_eq (k : ℕ) :
    extractBody oA ctx10 pC2 (c8LS k) =
      ((((c8Model k).addSins [((99:ℚ)/100, (1:ℚ), (0:ℚ))]).updateLinear oA),
        ((99:ℚ)/100, (1:ℚ), (0:ℚ))) := by
  have hsel : (stepSel (c8LS k)).1 = Select.a := by
    rw [stepSel_of_no_switch (c8LS k) rfl]
    rfl
  simp only [extractBody, hsel, oA_residual, c8LS_model, c8_cand, oA_fwr]
  norm_num [pC2]

theorem c8_model_step (k : ℕ) :
    (((c8Model k).addSins [((99:ℚ)/100, (1:ℚ), (0:ℚ))]).updateLinear oA) =
      c8Model (k + 1) := by
  simp only [TSState.addSins, TSState.updateLinear, c8Model]
  congr 1
  · show List.replicate k sinStar ++ [sinStar] = _
    rw [← List.replicate_succ']

theorem loopStExt (a b : ExtractLoopSt) (h1 : a.model = b.model)
    (h2 : a.sel = b.sel) (h3 : a.switch = b.switch) (h4 : a.bicPrev = b.bicPrev)
    (h5 : a.cond1 = b.cond1) (h6 : a.cond2 = b.cond2) : a = b := by
  cases a
  cases b
  simp_all

theorem extractStep_cond1_bic (o : Oracle V) (ctx : Ctx) (p : XParams) (n0 : ℕ)
    (st : ExtractLoopSt) (h : p.stop_crit = StopCrit.bic) :
    (extractStep o ctx p n0 st).cond1 =
      decide (p.bic_thr < round2 (st.bicPrev - o.bic (extractBody o ctx p st).1)) := by
  obtain ⟨bt, snrt, sc, sel, ne, fes, res, rf⟩ := p
  cases h
  rfl

theorem extractStep_model_eqn (o : Oracle V) (ctx : Ctx) (p : XParams) (n0 : ℕ)
    (st : ExtractLoopSt) :
    (extractStep o ctx p n0 st).model =
      if (extractStep o ctx p n0 st).cond1 then (extractBody o ctx p st).1
      else (((extractBody o ctx p st).1.setSins st.model.triples).updateLinear o) := rfl

theorem extractStep_bicPrev_eqn (o : Oracle V) (ctx : Ctx) (p : XParams) (n0 : ℕ)
    (st : ExtractLoopSt) :
    (extractStep o ctx p n0 st).bicPrev =
      if (extractStep o ctx p n0 st).cond1 then o.bic (extractBody o ctx p st).1
      else st.bicPrev := rfl

theorem c8_n_sin (k : ℕ) : (c8Model k).n_sin = k := by
  simp [c8Model, TSState.n_sin]

theorem c8_step (k : ℕ) :
    extractStep oA ctx10 pC2 0 (c8LS k) = c8LS (k + 1) := by
  have hb : (extractBody oA ctx10 pC2 (c8LS k)).1 = c8Model (k + 1) := by
    rw [c8_body_eq]
    exact c8_model_step k
  have hbic : oA.bic (c8Model (k + 1)) = -3 * (((k + 1 : ℕ)) : ℚ) := by
    show -3 * (((c8Model (k + 1)).n_sin : ℕ) : ℚ) = _
    rw [c8_n_sin]
  have hr3 : round2 (3 : ℚ) = 3 := by with_unfolding_all decide
  have hd : (c8LS k).bicPrev - oA.bic (extractBody oA ctx10 pC2 (c8LS k)).1 = 3 := by
    rw [hb, hbic]
    show -3 * (k : ℚ) - _ = 3
    push_cast
    ring
  have hc1 : (extractStep oA ctx10 pC2 0 (c8LS k)).cond1 = true := by
    rw [extractStep_cond1_bic oA ctx10 pC2 0 (c8LS k) rfl, hd, hr3]
    exact decide_eq_true (by norm_num [pC2])
  have hmod : (extractStep oA ctx10 pC2 0 (c8LS k)).model = c8Model (k + 1) := by
    rw [extractStep_model_eqn, hc1, if_pos rfl]
    exact hb
  have hbp : (extractStep oA ctx10 pC2 0 (c8LS k)).bicPrev = -3 * (((k + 1 : ℕ)) : ℚ) := by
    rw [extractStep_bicPrev_eqn, hc1, if_pos rfl, hb, hbic]
  have hsel : (extractStep oA ctx10 pC2 0 (c8LS k)).sel = Select.a := by
    rw [extractStep_sel, stepSel_of_no_switch (c8LS k) rfl]
    rfl
  have hsw : (extractStep oA ctx10 pC2 0 (c8LS k)).switch = false := by
    rw [extractStep_switch, stepSel_of_no_switch (c8LS k) rfl]
  have hcap : capOf pC2 = 10 ^ 6 := by
    simp [capOf, pC2]
  have hc2 : (extractStep oA ctx10 pC2 0 (c8LS k)).cond2 = (c8LS (k + 1)).cond2 := by
    rw [extractStep_cond2, hmod, c8_n_sin]
    have h1 : (c8LS (k + 1)).cond2 = decide ((((k + 1 : ℕ)) : ℤ) < 10 ^ 6) := by
      simp only [c8LS]
    rw [h1, hcap]
    apply decide_eq_decide.2
    omega
  exact loopStExt _ _ hmod hsel hsw hbp hc1 hc2

theorem c8_guard_true (k : ℕ) (hk : (k : ℤ) < 10 ^ 6) :
    loopGuard (c8LS k) = true := by
  simp [loopGuard, c8LS]
  omega

theorem c8_run (j : ℕ) : ∀ k : ℕ, (k : ℤ) ≤ 10 ^ 6 → (10 ^ 6 : ℤ) ≤ (k : ℤ) + (j : ℤ) →
    extractLoop oA ctx10 pC2 0 j (c8LS k) = c8LS (10 ^ 6) := by
  induction j with
  | zero =>
    intro k h1 h2
    have hk : k = 10 ^ 6 := by omega
    subst hk
    rfl
  | succ n ih =>
    intro k h1 h2
    by_cases hk : (k : ℤ) < 10 ^ 6
    · rw [extractLoop, c8_guard_true k hk, if_pos rfl, c8_step k]
      exact ih (k + 1) (by push_cast; omega) (by push_cast; push_cast at h2; omega)
    · have hke : k = 10 ^ 6 := by omega
      subst hke
      have hg : loopGuard (c8LS (10 ^ 6)) = false := by
        simp [loopGuard, c8LS]
      rw [extractLoop, hg]
      simp

theorem extract_sinusoids_eq (o : Oracle V) (ctx : Ctx) (p : XParams)
    (fuel : ℕ) (m : TSState) :
    extract_sinusoids o ctx p fuel m =
      (extractLoop o ctx p m.n_sin fuel (extractInit o p m)).model := rfl

/-- C8 (counterexample).  A concrete `extract_sinusoids` call with
`n_extract = 0` and an oracle whose every candidate passes the BIC
criterion (each step drops the BIC by 3) stops through the
extraction-count limit after exactly `10^6` accepted sinusoids: the final
loop state still has the stop-criterion condition true but the count
condition false, and giving the loop more fuel does not extract more.
`n_extract = 0` therefore does place an upper bound (`10^6`) on the
number of sinusoids accepted in one call. -/
theorem c8_run_stops_at_cap :
    extractLoop oA ctx10 pC2 0 (10 ^ 6 + 10) (extractInit oA pC2 mEmpty) =
      c8LS (10 ^ 6) ∧
    (c8LS (10 ^ 6)).cond1 = true ∧
    (c8LS (10 ^ 6)).cond2 = false ∧
    (c8LS (10 ^ 6)).model.n_sin = 10 ^ 6 ∧
    extract_sinusoids oA ctx10 pC2 (10 ^ 6 + 10) mEmpty = (c8LS (10 ^ 6)).model := by
  have hinit : extractInit oA pC2 mEmpty = c8LS 0 := by
    refine loopStExt _ _ rfl rfl rfl rfl rfl ?_
    have h1 : (c8LS 0).cond2 = decide ((((0 : ℕ)) : ℤ) < 10 ^ 6) := by
      simp only [c8LS]
    rw [h1]
    exact (decide_eq_true (by norm_num)).symm
  have hrun := c8_run (10 ^ 6 + 10) 0 (by norm_num) (by norm_num)
  refine ⟨?_, rfl, ?_, ?_, ?_⟩
  · rw [hinit]
    exact hrun
  · have h1 : (c8LS (10 ^ 6)).cond2 = decide ((((10 ^ 6 : ℕ)) : ℤ) < 10 ^ 6) := by
      simp only [c8LS]
    rw [h1, decide_eq_false_iff_not]
    push_cast
    norm_num
  · show (List.replicate (10 ^ 6) sinStar).length = 10 ^ 6
    rw [List.length_replicate]
  · have h0 : mEmpty.n_sin = 0 := rfl
    rw [extract_sinusoids_eq, h0, hinit, hrun]

/-! ## Claim C4: range contracts of the single-frequency extractors -/

theorem argmaxAux_cases (xs : List ℚ) : ∀ (i bi : ℕ) (bv : ℚ),
    argmaxAux xs i bi bv = bi ∨
      (i ≤ argmaxAux xs i bi bv ∧ argmaxAux xs i bi bv < i + xs.length) := by
  induction xs with
  | nil =>
    intro i bi bv
    left
    rfl
  | cons x xs ih =>
    intro i bi bv
    simp only [argmaxAux, List.length_cons]
    by_cases h : bv < x
    · rw [if_pos h]
      rcases ih (i + 1) i x with h1 | h1
    <;> [right; right] <;> omega
    · rw [if_neg h]
      rcases ih (i + 1) bi bv with h1 | h1
      · left
        exact h1
      · right
        omega

theorem argmaxIdx_lt_length (l : List ℚ) (h : l ≠ []) : argmaxIdx l < l.length := by
  match l, h with
  | x :: xs, _ =>
    simp only [argmaxIdx, List.length_cons]
    rcases argmaxAux_cases xs 1 0 x with h1 | h1
    · rw [h1]
      omega
    · omega

theorem argmaxIdx_lt_of_le (l : List ℚ) (n : ℕ) (hn : 0 < n) (hl : l.length ≤ n) :
    argmaxIdx l < n := by
  cases l with
  | nil => simpa [argmaxIdx] using hn
  | cons x xs => exact lt_of_lt_of_le (argmaxIdx_lt_length _ (by simp)) hl

theorem getD_mem {α : Type} (l : List α) (i : ℕ) (d : α) (h : i < l.length) :
    l.getD i d ∈ l := by
  induction l generalizing i with
  | nil => simp at h
  | cons x xs ih =>
    cases i with
    | zero =>
      rw [List.getD_cons_zero]
      exact List.mem_cons_self x xs
    | succ n =>
      rw [List.getD_cons_succ]
      exact List.mem_cons_of_mem x (ih n (by simpa using h))

theorem getD_default_of_le {α : Type} (l : List α) (i : ℕ) (d : α)
    (h : l.length ≤ i) : l.getD i d = d := by
  induction l generalizing i with
  | nil => cases i <;> rfl
  | cons x xs ih =>
    cases i with
    | zero => simp at h
    | succ n =>
      rw [List.getD_cons_succ]
      exact ih n (by simpa using h)

theorem getD_nonneg (l : List ℚ) (i : ℕ) (h : ∀ y ∈ l, 0 ≤ y) :
    0 ≤ l.getD i 0 := by
  by_cases hi : i < l.length
  · exact h _ (getD_mem l i 0 hi)
  · rw [getD_default_of_le l i 0 (le_of_not_lt hi)]

theorem refinePeak_bounds (o : Oracle V) (flux : V) (W : ℚ → Prop) (df p₀ : ℚ)
    (hsc : GridContract o.scargle) (hdf : 0 < df) (hp0 : 0 < p₀)
    (hW : ∀ f : ℚ, W (o.ampl_phase_single flux f).2) :
    p₀ - df ≤ (refinePeak o flux df p₀).1 ∧
    (refinePeak o flux df p₀).1 ≤ p₀ + df ∧
    df / 10 ≤ (refinePeak o flux df p₀).1 ∧
    0 ≤ (refinePeak o flux df p₀).2.1 ∧
    W (refinePeak o flux df p₀).2.2 := by
  have hab : max (p₀ - df) (df / 10) ≤ p₀ + df := by
    apply max_le <;> linarith
  obtain ⟨hne, hlen, hmem, hpos⟩ :=
    hsc flux (max (p₀ - df) (df / 10)) (p₀ + df) (df / 100) (by positivity) hab
  set fa2 := o.scargle flux (max (p₀ - df) (df / 10)) (p₀ + df) (df / 100) with hfa2
  have hi2 : argmaxIdx fa2.2 < fa2.1.length :=
    argmaxIdx_lt_of_le _ _ (List.length_pos.2 hne) (by omega)
  have hmem2 := hmem _ (getD_mem fa2.1 (argmaxIdx fa2.2) 0 hi2)
  have h1 : (refinePeak o flux df p₀).1 = fa2.1.getD (argmaxIdx fa2.2) 0 := rfl
  refine ⟨?_, ?_, ?_, ?_, ?_⟩
  · rw [h1]
    exact le_trans (le_max_left _ _) hmem2.1
  · rw [h1]
    exact hmem2.2
  · rw [h1]
    exact le_trans (le_max_right _ _) hmem2.1
  · show 0 ≤ fa2.2.getD (argmaxIdx fa2.2) 0
    exact getD_nonneg _ _ hpos
  · show W (o.ampl_phase_single flux (fa2.1.getD (argmaxIdx fa2.2) 0)).2
    exact hW _

theorem extract_single_as_refine (o : Oracle V) (flux : V) (t f0 fn : ℚ)
    (sel : Select) (hdf : 0 < (1/10)/t) (hab : f0 ≤ fn)
    (hscp : GridContract o.scargle_parallel) :
    ∃ p₀, f0 ≤ p₀ ∧ p₀ ≤ fn ∧
      extract_single o flux t f0 fn sel = refinePeak o flux ((1/10)/t) p₀ := by
  obtain ⟨hne, hlen, hmem, hpos⟩ := hscp flux f0 fn ((1/10)/t) hdf hab
  set fa := o.scargle_parallel flux f0 fn ((1/10)/t) with hfaeq
  set ampls := (if sel = Select.sn then
      (fa.2.zip (o.noise_spectrum fa.1 fa.2 1)).map (fun p => p.1 / p.2)
    else fa.2) with hampls
  have h0 : 0 < fa.1.length := List.length_pos.2 hne
  have hi : argmaxIdx ampls < fa.1.length := by
    apply argmaxIdx_lt_of_le _ _ h0
    rw [hampls]
    by_cases hsel : sel = Select.sn
    · rw [if_pos hsel]
      simp only [List.length_map, List.length_zip]
      omega
    · rw [if_neg hsel]
      omega
  have hpk := hmem _ (getD_mem fa.1 (argmaxIdx ampls) 0 hi)
  exact ⟨fa.1.getD (argmaxIdx ampls) 0, hpk.1, hpk.2, rfl⟩

theorem extract_local_as_refine (o : Oracle V) (flux : V) (t f0 fn : ℚ)
    (hdf : 0 < (1/10)/t) (hab : f0 ≤ fn)
    (hsc : GridContract o.scargle) (hup : UphillContract o) :
    ∃ p₀, f0 ≤ p₀ ∧ p₀ ≤ fn ∧
      extract_local o flux t f0 fn = refinePeak o flux ((1/10)/t) p₀ := by
  obtain ⟨hne, hlen, hmem, hpos⟩ := hsc flux f0 fn ((1/10)/t) hdf hab
  set fa := o.scargle flux f0 fn ((1/10)/t) with hfaeq
  obtain ⟨he01, he1⟩ := hup fa.1 (fa.2.map Neg.neg)
    [fa.1.getD 0 0, fa.1.getD (fa.1.length - 1) 0] hne
  set edges := o.uphill_local_max fa.1 (fa.2.map Neg.neg)
    [fa.1.getD 0 0, fa.1.getD (fa.1.length - 1) 0] with hedges
  set freqs := (fa.1.drop (edges.getD 0 0)).take (edges.getD 1 0 + 1 - edges.getD 0 0)
    with hfreqs
  set ampls := (fa.2.drop (edges.getD 0 0)).take (edges.getD 1 0 + 1 - edges.getD 0 0)
    with hampls
  have hflen : freqs.length =
      min (edges.getD 1 0 + 1 - edges.getD 0 0) (fa.1.length - edges.getD 0 0) := by
    rw [hfreqs, List.length_take, List.length_drop]
  have halen : ampls.length =
      min (edges.getD 1 0 + 1 - edges.getD 0 0) (fa.2.length - edges.getD 0 0) := by
    rw [hampls, List.length_take, List.length_drop]
  have hfpos : 0 < freqs.length := by
    rw [hflen]
    omega
  have hi : argmaxIdx ampls < freqs.length := by
    apply argmaxIdx_lt_of_le _ _ hfpos
    omega
  have hpk : freqs.getD (argmaxIdx ampls) 0 ∈ fa.1 := by
    have hm := getD_mem freqs (argmaxIdx ampls) 0 hi
    rw [hfreqs] at hm
    exact List.drop_subset _ _ (List.take_subset _ _ hm)
  have hb := hmem _ hpk
  exact ⟨freqs.getD (argmaxIdx ampls) 0, hb.1, hb.2, rfl⟩

theorem extract_approx_as_refine (o : Oracle V) (flux : V) (t f_approx : ℚ)
    (hdf : 0 < (1/10)/t)
    (hab : (approx_window t f_approx).1 ≤ (approx_window t f_approx).2)
    (hsc : GridContract o.scargle) (hup : UphillContract o) :
    ∃ p₀, (approx_window t f_approx).1 ≤ p₀ ∧ p₀ ≤ (approx_window t f_approx).2 ∧
      extract_approx o flux t f_approx = refinePeak o flux ((1/10)/t) p₀ := by
  obtain ⟨hne, hlen, hmem, hpos⟩ :=
    hsc flux (approx_window t f_approx).1 (approx_window t f_approx).2 ((1/10)/t) hdf hab
  set fa := o.scargle flux (approx_window t f_approx).1 (approx_window t f_approx).2
    ((1/10)/t) with hfaeq
  obtain ⟨he01, he1⟩ := hup fa.1 fa.2 [f_approx] hne
  have hi : (o.uphill_local_max fa.1 fa.2 [f_approx]).getD 0 0 < fa.1.length :=
    lt_of_le_of_lt he01 he1
  have hpk := hmem _ (getD_mem fa.1 _ 0 hi)
  exact ⟨fa.1.getD ((o.uphill_local_max fa.1 fa.2 [f_approx]).getD 0 0) 0,
    hpk.1, hpk.2, rfl⟩

/-- C4 (amended).  Under the spec contracts on the periodogram service
(grids stay within the requested interval, amplitudes are non-negative,
phases satisfy the wrapping predicate `W`), each extractor returns a
non-negative amplitude, a `W`-wrapped phase, and a frequency that is
positive and lies within the *widened* interval `[lo - df, hi + df]`
(`df = 0.1/t_tot`), where `[lo, hi]` are the requested (or derived scan)
bounds.  The frequency need not lie within `[lo, hi]` itself: when the
scan peak sits at an interval edge, the x100 refinement interval
`[max(peak - df, df/10), peak + df]` reaches outside the requested
bounds (see the counterexample). -/
theorem c4_extractor_range_contract (o : Oracle V) (flux : V) (W : ℚ → Prop)
    (t f0 fn f_approx : ℚ) (sel : Select)
    (ht : 0 < t) (hf0 : 0 < f0) (hffn : f0 < fn) (hfa : 0 < f_approx)
    (hsc : GridContract o.scargle) (hscp : GridContract o.scargle_parallel)
    (hup : UphillContract o)
    (hW : ∀ f : ℚ, W (o.ampl_phase_single flux f).2) :
    (f0 - (1/10)/t ≤ (extract_single o flux t f0 fn sel).1 ∧
      (extract_single o flux t f0 fn sel).1 ≤ fn + (1/10)/t ∧
      0 < (extract_single o flux t f0 fn sel).1 ∧
      0 ≤ (extract_single o flux t f0 fn sel).2.1 ∧
      W (extract_single o flux t f0 fn sel).2.2) ∧
    (f0 - (1/10)/t ≤ (extract_local o flux t f0 fn).1 ∧
      (extract_local o flux t f0 fn).1 ≤ fn + (1/10)/t ∧
      0 < (extract_local o flux t f0 fn).1 ∧
      0 ≤ (extract_local o flux t f0 fn).2.1 ∧
      W (extract_local o flux t f0 fn).2.2) ∧
    ((approx_window t f_approx).1 - (1/10)/t ≤ (extract_approx o flux t f_approx).1 ∧
      (extract_approx o flux t f_approx).1 ≤ (approx_window t f_approx).2 + (1/10)/t ∧
      0 < (extract_approx o flux t f_approx).1 ∧
      0 ≤ (extract_approx o flux t f_approx).2.1 ∧
      W (extract_approx o flux t f_approx).2.2) := by
  have hdf : 0 < (1/10)/t := by positivity
  refine ⟨?_, ?_, ?_⟩
  · obtain ⟨p₀, hp1, hp2, he⟩ :=
      extract_single_as_refine o flux t f0 fn sel hdf (le_of_lt hffn) hscp
    rw [he]
    have hb := refinePeak_bounds o flux W ((1/10)/t) p₀ hsc hdf
      (lt_of_lt_of_le hf0 hp1) hW
    exact ⟨by linarith [hb.1], by linarith [hb.2.1],
      by linarith [hb.2.2.1], hb.2.2.2.1, hb.2.2.2.2⟩
  · obtain ⟨p₀, hp1, hp2, he⟩ :=
      extract_local_as_refine o flux t f0 fn hdf (le_of_lt hffn) hsc hup
    rw [he]
    have hb := refinePeak_bounds o flux W ((1/10)/t) p₀ hsc hdf
      (lt_of_lt_of_le hf0 hp1) hW
    exact ⟨by linarith [hb.1], by linarith [hb.2.1],
      by linarith [hb.2.2.1], hb.2.2.2.1, hb.2.2.2.2⟩
  · have hw1 : ((1/10)/t)/10 ≤ (approx_window t f_approx).1 := by
      show _ ≤ max _ _
      exact le_max_right _ _
    have hwab : (approx_window t f_approx).1 ≤ (approx_window t f_approx).2 := by
      show max (f_approx - 25 * ((1/10)/t)) (((1/10)/t)/10) ≤ f_approx + 25 * ((1/10)/t)
      apply max_le <;> linarith
    obtain ⟨p₀, hp1, hp2, he⟩ :=
      extract_approx_as_refine o flux t f_approx hdf hwab hsc hup
    rw [he]
    have hp0 : 0 < p₀ := lt_of_lt_of_le (by linarith) hp1
    have hb := refinePeak_bounds o flux W ((1/10)/t) p₀ hsc hdf hp0 hW
    exact ⟨by linarith [hb.1], by linarith [hb.2.1],
      by linarith [hb.2.2.1], hb.2.2.2.1, hb.2.2.2.2⟩

theorem oA_grid : GridContract (Oracle.scargle oA) := by
  intro flux a b d hd hab
  have he : oA.scargle flux a b d = ([a], [1]) := rfl
  rw [he]
  refine ⟨by simp, by simp, ?_, ?_⟩
  · intro x hx
    rw [List.mem_singleton] at hx
    subst hx
    exact ⟨le_refl _, hab⟩
  · intro y hy
    rw [List.mem_singleton] at hy
    subst hy
    norm_num

theorem oA_grid_par : GridContract (Oracle.scargle_parallel oA) := by
  intro flux a b d hd hab
  have he : oA.scargle_parallel flux a b d = ([a], [1]) := rfl
  rw [he]
  refine ⟨by simp, by simp, ?_, ?_⟩
  · intro x hx
    rw [List.mem_singleton] at hx
    subst hx
    exact ⟨le_refl _, hab⟩
  · intro y hy
    rw [List.mem_singleton] at hy
    subst hy
    norm_num

theorem oA_uphill : UphillContract oA := by
  intro fr am s hne
  have hz : ∀ (u : List ℚ) (i : ℕ), ((u.map (fun _ => (0 : ℕ))).getD i 0) = 0 := by
    intro u i
    by_cases hi : i < (u.map (fun _ => (0 : ℕ))).length
    · have hm := getD_mem (u.map (fun _ => (0 : ℕ))) i 0 hi
      simp only [List.mem_map] at hm
      obtain ⟨_, _, hv⟩ := hm
      exact hv.symm
    · exact getD_default_of_le _ _ _ (le_of_not_lt hi)
  have he : oA.uphill_local_max fr am s = s.map (fun _ => 0) := rfl
  rw [he, hz s 0, hz s 1]
  exact ⟨le_refl 0, List.length_pos.2 hne⟩

/-- C4 witness: the amended statement evaluated for the `oA` oracle
(which satisfies the grid and uphill contracts) with the phase-wrapping
predicate instantiated to "the phase is 0". -/
theorem c4_extractor_range_contract_witness :
    ((0:ℚ) < 10 ∧ (0:ℚ) < 1 ∧ (1:ℚ) < 2 ∧
      GridContract (Oracle.scargle oA) ∧ GridContract (Oracle.scargle_parallel oA) ∧
      UphillContract oA) ∧
    (((1:ℚ) - (1/10)/10 ≤ (extract_single oA (0:ℚ) 10 1 2 Select.a).1 ∧
      (extract_single oA (0:ℚ) 10 1 2 Select.a).1 ≤ 2 + (1/10)/10 ∧
      0 < (extract_single oA (0:ℚ) 10 1 2 Select.a).1 ∧
      0 ≤ (extract_single oA (0:ℚ) 10 1 2 Select.a).2.1 ∧
      (extract_single oA (0:ℚ) 10 1 2 Select.a).2.2 = 0) ∧
    ((1:ℚ) - (1/10)/10 ≤ (extract_local oA (0:ℚ) 10 1 2).1 ∧
      (extract_local oA (0:ℚ) 10 1 2).1 ≤ 2 + (1/10)/10 ∧
      0 < (extract_local oA (0:ℚ) 10 1 2).1 ∧
      0 ≤ (extract_local oA (0:ℚ) 10 1 2).2.1 ∧
      (extract_local oA (0:ℚ) 10 1 2).2.2 = 0) ∧
    ((approx_window 10 1).1 - (1/10)/10 ≤ (extract_approx oA (0:ℚ) 10 1).1 ∧
      (extract_approx oA (0:ℚ) 10 1).1 ≤ (approx_window 10 1).2 + (1/10)/10 ∧
      0 < (extract_approx oA (0:ℚ) 10 1).1 ∧
      0 ≤ (extract_approx oA (0:ℚ) 10 1).2.1 ∧
      (extract_approx oA (0:ℚ) 10 1).2.2 = 0)) :=
  ⟨⟨by norm_num, by norm_num, by norm_num, oA_grid, oA_grid_par, oA_uphill⟩,
    c4_extractor_range_contract oA (0:ℚ) (fun ph => ph = 0) 10 1 2 1 Select.a
      (by norm_num) (by norm_num) (by norm_num) (by norm_num)
      oA_grid oA_grid_par oA_uphill (fun _ => rfl)⟩

/-- C4 (counterexample).  With a periodogram whose scanned grids respect
the requested intervals (shown by the last two conjuncts for the two
calls made), `extract_single(time, flux, f0=1, fn=2)` returns the
frequency `0.99 < f0`: the scan peak lies at the interval edge `f0` and
the x100 refinement interval `[max(f0 - df, df/10), f0 + df]` reaches
below `f0`, so the returned frequency escapes the requested bounds. -/
theorem c4_frequency_escapes_bounds :
    (extract_single oA (0:ℚ) 10 1 2 Select.a).1 = 99/100 ∧
    ¬((1:ℚ) ≤ (extract_single oA (0:ℚ) 10 1 2 Select.a).1) ∧
    (∀ x ∈ (oA.scargle_parallel (0:ℚ) 1 2 ((1/10)/10)).1, 1 ≤ x ∧ x ≤ 2) ∧
    (∀ x ∈ (oA.scargle (0:ℚ) (max ((99:ℚ)/100) (((1/10)/10)/10)) (1 + (1/10)/10)
        (((1/10)/10)/100)).1,
      max ((99:ℚ)/100) (((1/10)/10)/10) ≤ x ∧ x ≤ 1 + (1/10)/10) := by
  refine ⟨by with_unfolding_all decide, by with_unfolding_all decide, ?_, ?_⟩
  · intro x hx
    have he : (oA.scargle_parallel (0:ℚ) 1 2 ((1/10)/10)).1 = [1] := rfl
    rw [he, List.mem_singleton] at hx
    subst hx
    norm_num
  · intro x hx
    have he : (oA.scargle (0:ℚ) (max ((99:ℚ)/100) (((1/10)/10)/10)) (1 + (1/10)/10)
        (((1/10)/10)/100)).1 = [max ((99:ℚ)/100) (((1/10)/10)/10)] := rfl
    rw [he, List.mem_singleton] at hx
    subst hx
    constructor
    · exact le_refl _
    · apply max_le <;> norm_num

/-! ## Claim C5: pair replacement in `replace_subset` -/

theorem removeExcluded_excl (s : TSState) :
    ∀ x ∈ s.removeExcluded.sins, x.excl = false := by
  intro x hx
  simp only [TSState.removeExcluded, List.mem_filter] at hx
  simpa using hx.2

/-- `replace_subset` on a two-element cluster reduces to one
`replaceStep` followed by `remove_excluded`. -/
theorem c5_head_eq (o : Oracle V) (ctx : Ctx) (f₁ a₁ p₁ f₂ a₂ p₂ : ℚ)
    (lin : LinPars) (m₀ : TSState)
    (hm0 : m₀ = ⟨[⟨f₁, a₁, p₁, false, false⟩, ⟨f₂, a₂, p₂, false, false⟩], lin⟩) :
    replace_subset o ctx m₀ [0, 1] =
      ((replaceStep o ctx (1 / ctx.t_ptp) [] (m₀, o.bic m₀, ([] : List ℕ))
        [0, 1]).1).removeExcluded := by
  subst hm0
  rfl

/-- The single `replaceStep` on the pair: soft-remove both, extract one
local replacement over `[min f - 1/t_tot, max f + 1/t_tot]`, and accept it
exactly when the rounded BIC drop is positive. -/
theorem c5_step_eq (o : Oracle V) (ctx : Ctx) (f₁ a₁ p₁ f₂ a₂ p₂ : ℚ)
    (lin : LinPars) (m₀ mEx mTry : TSState) (cand : ℚ × ℚ × ℚ)
    (hm0 : m₀ = ⟨[⟨f₁, a₁, p₁, false, false⟩, ⟨f₂, a₂, p₂, false, false⟩], lin⟩)
    (hmEx : mEx = (m₀.excludeSins [0, 1]).updateLinear o)
    (hcand : cand = extract_local o (o.residual mEx) ctx.t_ptp
      (min f₁ f₂ - 1 / ctx.t_ptp) (max f₁ f₂ + 1 / ctx.t_ptp))
    (hmTry : mTry = (mEx.addSins [cand]).updateLinear o) :
    replaceStep o ctx (1 / ctx.t_ptp) [] (m₀, o.bic m₀, ([] : List ℕ)) [0, 1] =
      if 0 < round2 (o.bic m₀ - o.bic mTry) then (mTry, o.bic mTry, [0, 1])
      else (((mTry.removeSins [2]).includeSins [0, 1]).updateLinear o,
        o.bic m₀, ([] : List ℕ)) := by
  subst hm0
  subst hmEx
  subst hcand
  subst hmTry
  rfl

/-- C5 (amended).  For a pair of (non-harmonic) sinusoids handed to
`replace_subset` as a cluster, the pair is collapsed into the single
re-extracted sinusoid exactly when the BIC drop of the swap, rounded to
2 decimals, is *strictly* positive; a BIC-neutral (or negative) swap is
rejected and the original pair is returned unchanged.  In all cases no
soft-removed sinusoid survives in the returned model. -/
theorem c5_pair_replacement (o : Oracle V) (ctx : Ctx) (f₁ a₁ p₁ f₂ a₂ p₂ : ℚ)
    (lin : LinPars)
    (_hclose : |f₁ - f₂| < ctx.f_resolution / 2)
    (m₀ mEx mTry : TSState) (cand : ℚ × ℚ × ℚ)
    (hm0 : m₀ = ⟨[⟨f₁, a₁, p₁, false, false⟩, ⟨f₂, a₂, p₂, false, false⟩], lin⟩)
    (hmEx : mEx = (m₀.excludeSins [0, 1]).updateLinear o)
    (hcand : cand = extract_local o (o.residual mEx) ctx.t_ptp
      (min f₁ f₂ - 1 / ctx.t_ptp) (max f₁ f₂ + 1 / ctx.t_ptp))
    (hmTry : mTry = (mEx.addSins [cand]).updateLinear o) :
    (0 < round2 (o.bic m₀ - o.bic mTry) →
      (replace_subset o ctx m₀ [0, 1]).sins =
        [⟨cand.1, cand.2.1, cand.2.2, false, false⟩]) ∧
    (¬(0 < round2 (o.bic m₀ - o.bic mTry)) →
      (replace_subset o ctx m₀ [0, 1]).sins = m₀.sins) ∧
    (∀ x ∈ (replace_subset o ctx m₀ [0, 1]).sins, x.excl = false) := by
  have hhead := c5_head_eq o ctx f₁ a₁ p₁ f₂ a₂ p₂ lin m₀ hm0
  have hstep := c5_step_eq o ctx f₁ a₁ p₁ f₂ a₂ p₂ lin m₀ mEx mTry cand
    hm0 hmEx hcand hmTry
  refine ⟨?_, ?_, ?_⟩
  · intro hacc
    rw [hhead, hstep, if_pos hacc]
    show (mTry.removeExcluded).sins = _
    rw [hmTry, hmEx, hm0]
    rfl
  · intro hacc
    rw [hhead, hstep, if_neg hacc]
    show (((((mTry.removeSins [2]).includeSins [0, 1]).updateLinear o)).removeExcluded).sins = _
    rw [hmTry, hmEx, hm0]
    rfl
  · rw [hhead]
    exact removeExcluded_excl _

/-- C5 witness: the amended statement on the concrete close pair `mC5`
with the flat-BIC oracle. -/
theorem c5_pair_replacement_witness :
    |(1 : ℚ) - 101/100| < ctx10.f_resolution / 2 ∧
    ((0 < round2 (oFlat.bic mC5 - oFlat.bic mC5try) →
      (replace_subset oFlat ctx10 mC5 [0, 1]).sins =
        [⟨mC5cand.1, mC5cand.2.1, mC5cand.2.2, false, false⟩]) ∧
    (¬(0 < round2 (oFlat.bic mC5 - oFlat.bic mC5try)) →
      (replace_subset oFlat ctx10 mC5 [0, 1]).sins = mC5.sins) ∧
    (∀ x ∈ (replace_subset oFlat ctx10 mC5 [0, 1]).sins, x.excl = false)) :=
  ⟨by norm_num [ctx10, abs_lt], c5_pair_replacement oFlat ctx10 1 1 0 (101/100) 1 0
    ([], []) (by norm_num [ctx10, abs_lt]) mC5 mC5ex mC5try mC5cand rfl rfl rfl rfl⟩

/-- C5 (counterexample).  Two sinusoids 0.01 cycles/day apart (closer
than `0.5 * f_resolution = 0.075` for the 10-day baseline) whose
replacement by one sinusoid leaves the BIC unchanged (a non-worsening,
BIC-neutral swap) are *not* collapsed: `replace_subset` keeps both,
because its acceptance test demands a strictly positive rounded BIC
drop. -/
theorem c5_neutral_swap_not_collapsed :
    |(1 : ℚ) - 101/100| < ctx10.f_resolution / 2 ∧
    oFlat.bic mC5try = oFlat.bic mC5 ∧
    (replace_subset oFlat ctx10 mC5 [0, 1]).sins = mC5.sins ∧
    (replace_subset oFlat ctx10 mC5 [0, 1]).sins.length = 2 := by
  refine ⟨by norm_num [ctx10, abs_lt], ?_, ?_, ?_⟩
  · with_unfolding_all decide
  · with_unfolding_all decide
  · with_unfolding_all decide


/-! ## C10: `remove_sinusoids_single` only deletes -/

/-- A single removal trial either leaves the removal list unchanged or
appends the fresh index `i` to it. -/
theorem removeStep_rm_cases (o : Oracle V) [Add V] [Sub V]
    (f_n a_n ph_n : List ℚ) (harmIdx : List ℕ) (n_chunks : ℕ)
    (acc : RAcc V) (i : ℕ) :
    (removeStep o f_n a_n ph_n harmIdx n_chunks acc i).rm = acc.rm ∨
      (i ∉ acc.rm ∧
        (removeStep o f_n a_n ph_n harmIdx n_chunks acc i).rm = acc.rm ++ [i]) := by
  by_cases hmem : i ∈ acc.rm
  · left; simp [removeStep, hmem]
  · by_cases hh : i ∈ harmIdx
    · simp only [removeStep, if_neg hmem, if_pos hh]
      split
      · right; exact ⟨hmem, rfl⟩
      · left; rfl
    · simp only [removeStep, if_neg hmem, if_neg hh]
      split
      · right; exact ⟨hmem, rfl⟩
      · left; rfl

/-- Folding removal trials over in-range indices keeps the removal list
duplicate-free and within the array bounds. -/
theorem foldl_removeStep_inv (o : Oracle V) [Add V] [Sub V]
    (f_n a_n ph_n : List ℚ) (harmIdx : List ℕ) (n_chunks : ℕ) (l : List ℕ) :
    ∀ acc : RAcc V, (∀ i ∈ l, i < f_n.length) →
      acc.rm.Nodup → (∀ i ∈ acc.rm, i < f_n.length) →
      (l.foldl (removeStep o f_n a_n ph_n harmIdx n_chunks) acc).rm.Nodup ∧
        ∀ i ∈ (l.foldl (removeStep o f_n a_n ph_n harmIdx n_chunks) acc).rm,
          i < f_n.length := by
  induction l with
  | nil => intro acc _ h1 h2; exact ⟨h1, h2⟩
  | cons x xs ih =>
    intro acc hl h1 h2
    rw [List.foldl_cons]
    refine ih _ (fun i hi => hl i (List.mem_cons_of_mem x hi)) ?_ ?_
    · rcases removeStep_rm_cases o f_n a_n ph_n harmIdx n_chunks acc x with h | ⟨hx, h⟩
      · rw [h]; exact h1
      · rw [h, ← List.concat_eq_append]; exact h1.concat hx
    · rcases removeStep_rm_cases o f_n a_n ph_n harmIdx n_chunks acc x with h | ⟨hx, h⟩
      · rw [h]; exact h2
      · rw [h]
        intro i hi
        rcases List.mem_append.1 hi with hi | hi
        · exact h2 i hi
        · rw [List.mem_singleton.1 hi]
          exact hl x (List.mem_cons_self x xs)

/-- A full removal pass preserves the removal-list invariant. -/
theorem removePass_rm_inv (o : Oracle V) [Add V] [Sub V]
    (f_n a_n ph_n : List ℚ) (harmIdx : List ℕ) (n_chunks : ℕ) (acc : RAcc V)
    (h1 : acc.rm.Nodup) (h2 : ∀ i ∈ acc.rm, i < f_n.length) :
    (removePass o f_n a_n ph_n harmIdx n_chunks acc).rm.Nodup ∧
      ∀ i ∈ (removePass o f_n a_n ph_n harmIdx n_chunks acc).rm, i < f_n.length :=
  foldl_removeStep_inv o f_n a_n ph_n harmIdx n_chunks (List.range f_n.length)
    acc (fun _ hi => List.mem_range.1 hi) h1 h2

/-- The outer removal loop preserves the removal-list invariant. -/
theorem removeLoop_rm_inv (o : Oracle V) [Add V] [Sub V]
    (f_n a_n ph_n : List ℚ) (harmIdx : List ℕ) (n_chunks : ℕ) :
    ∀ (fuel : ℕ) (acc : RAcc V), acc.rm.Nodup → (∀ i ∈ acc.rm, i < f_n.length) →
      (removeLoop o f_n a_n ph_n harmIdx n_chunks fuel acc).rm.Nodup ∧
        ∀ i ∈ (removeLoop o f_n a_n ph_n harmIdx n_chunks fuel acc).rm,
          i < f_n.length := by
  intro fuel
  induction fuel with
  | zero => intro acc h1 h2; exact ⟨h1, h2⟩
  | succ n ih =>
    intro acc h1 h2
    have hp := removePass_rm_inv o f_n a_n ph_n harmIdx n_chunks acc h1 h2
    simp only [removeLoop]
    split_ifs with h
    · exact ih _ hp.1 hp.2
    · exact hp

/-- Length bookkeeping for `deleteIdxsAux`: the survivors plus the hit
positions account for the whole list. -/
theorem deleteIdxsAux_length_add {α : Type} (rs : List ℕ) :
    ∀ (xs : List α) (i : ℕ),
      (deleteIdxsAux rs i xs).length
        + ((List.range' i xs.length).filter (fun j => j ∈ rs)).length
        = xs.length := by
  intro xs
  induction xs with
  | nil => intro i; simp [deleteIdxsAux]
  | cons x xs ih =>
    intro i
    rw [List.length_cons, List.range'_succ, List.filter_cons]
    by_cases h : i ∈ rs
    · have hstep : deleteIdxsAux rs i (x :: xs) = deleteIdxsAux rs (i + 1) xs := by
        simp [deleteIdxsAux, h]
      rw [hstep]
      have := ih (i + 1)
      simp [h]
      omega
    · have hstep : deleteIdxsAux rs i (x :: xs) = x :: deleteIdxsAux rs (i + 1) xs := by
        simp [deleteIdxsAux, h]
      rw [hstep]
      have := ih (i + 1)
      simp [h]
      omega

/-- `np.delete` removes exactly the listed positions: with a
duplicate-free in-range index list, survivors plus removals add up to
the original length. -/
theorem deleteIdxs_length_add {α : Type} (xs : List α) (rs : List ℕ)
    (hnd : rs.Nodup) (hb : ∀ i ∈ rs, i < xs.length) :
    (deleteIdxs xs rs).length + rs.length = xs.length := by
  have h := deleteIdxsAux_length_add rs xs 0
  have hperm : List.Perm ((List.range xs.length).filter (fun j => j ∈ rs)) rs := by
    refine (List.perm_ext_iff_of_nodup ((List.nodup_range xs.length).filter _) hnd).2 ?_
    intro a
    simp only [List.mem_filter, List.mem_range, decide_eq_true_eq]
    exact ⟨fun hh => hh.2, fun hh => ⟨hb a hh, hh⟩⟩
  have hlen := hperm.length_eq
  rw [List.range_eq_range'] at hlen
  show (deleteIdxsAux rs 0 xs).length + rs.length = xs.length
  omega

/-- `deleteIdxsAux` commutes with `zip` on equal-length lists. -/
theorem deleteIdxsAux_zip {α β : Type} (rs : List ℕ) :
    ∀ (xs : List α) (ys : List β) (i : ℕ), xs.length = ys.length →
      deleteIdxsAux rs i (xs.zip ys)
        = (deleteIdxsAux rs i xs).zip (deleteIdxsAux rs i ys) := by
  intro xs
  induction xs with
  | nil => intro ys i _; simp [deleteIdxsAux]
  | cons x xs ih =>
    intro ys i h
    cases ys with
    | nil => simp at h
    | cons y ys =>
      rw [List.zip_cons_cons]
      by_cases hm : i ∈ rs
      · simp only [deleteIdxsAux, if_pos hm]
        exact ih ys (i + 1) (by simpa using h)
      · simp only [deleteIdxsAux, if_neg hm]
        rw [List.zip_cons_cons, ih ys (i + 1) (by simpa using h)]

/-- **C10.**  `remove_sinusoids_single` only ever deletes sinusoids: there
is a duplicate-free in-range index list `rs` such that each returned
parameter array is exactly `np.delete` of the corresponding input array at
`rs` (so every returned `(f, a, ph)` triple equals, unchanged and in the
original relative order, the input triple at an index not chosen for
removal), and the output length is the input length minus the number
removed; only `const` and `slope` are recomputed. -/
theorem c10_remove_only_deletes (o : Oracle V) [Add V] [Sub V] (flux : V)
    (p_orb : ℚ) (const slope f_n a_n ph_n : List ℚ) (n_chunks : ℕ)
    (hla : a_n.length = f_n.length) (hlp : ph_n.length = f_n.length) :
    ∃ rs : List ℕ, rs.Nodup ∧ (∀ i ∈ rs, i < f_n.length) ∧
      (remove_sinusoids_single o flux p_orb const slope f_n a_n ph_n n_chunks).2.1
        = deleteIdxs f_n rs ∧
      (remove_sinusoids_single o flux p_orb const slope f_n a_n ph_n n_chunks).2.2.1
        = deleteIdxs a_n rs ∧
      (remove_sinusoids_single o flux p_orb const slope f_n a_n ph_n n_chunks).2.2.2
        = deleteIdxs ph_n rs ∧
      deleteIdxs (f_n.zip (a_n.zip ph_n)) rs
        = ((remove_sinusoids_single o flux p_orb const slope f_n a_n ph_n
              n_chunks).2.1).zip
            (((remove_sinusoids_single o flux p_orb const slope f_n a_n ph_n
                n_chunks).2.2.1).zip
              ((remove_sinusoids_single o flux p_orb const slope f_n a_n ph_n
                n_chunks).2.2.2)) ∧
      ((remove_sinusoids_single o flux p_orb const slope f_n a_n ph_n
          n_chunks).2.1).length
        + rs.length = f_n.length := by
  have hinv := removeLoop_rm_inv o f_n a_n ph_n
    ((find_harmonics_from_pattern f_n p_orb (1 / 10 ^ 9)).map (·.1)) n_chunks
    (f_n.length + 1)
    ⟨[], flux - o.sum_sines f_n a_n ph_n, (const, slope),
      o.calc_bic ((flux - o.sum_sines f_n a_n ph_n) - o.linear_curve (const, slope))
        (n_parameters n_chunks f_n.length
          ((find_harmonics_from_pattern f_n p_orb (1 / 10 ^ 9)).map (·.1)).length)⟩
    List.nodup_nil (by intro i hi; simp at hi)
  refine ⟨_, hinv.1, hinv.2, rfl, rfl, rfl, ?_, ?_⟩
  · rw [deleteIdxs,
      deleteIdxsAux_zip _ f_n (a_n.zip ph_n) 0 (by simp [List.length_zip, hla, hlp]),
      deleteIdxsAux_zip _ a_n ph_n 0 (hla.trans hlp.symm)]
    rfl
  · exact deleteIdxs_length_add f_n _ hinv.1 hinv.2

/-- C10 witness: the deletion decomposition on a concrete one-sinusoid
model under the flat-BIC oracle. -/
theorem c10_remove_only_deletes_witness :
    ([(1 : ℚ)] : List ℚ).length = ([(2 : ℚ)] : List ℚ).length ∧
    ([(3 : ℚ)] : List ℚ).length = ([(2 : ℚ)] : List ℚ).length ∧
    (∃ rs : List ℕ, rs.Nodup ∧ (∀ i ∈ rs, i < ([(2 : ℚ)] : List ℚ).length) ∧
      (remove_sinusoids_single oFlat 0 0 [0] [0] [2] [1] [3] 2).2.1
        = deleteIdxs [(2 : ℚ)] rs ∧
      (remove_sinusoids_single oFlat 0 0 [0] [0] [2] [1] [3] 2).2.2.1
        = deleteIdxs [(1 : ℚ)] rs ∧
      (remove_sinusoids_single oFlat 0 0 [0] [0] [2] [1] [3] 2).2.2.2
        = deleteIdxs [(3 : ℚ)] rs ∧
      deleteIdxs (([(2 : ℚ)] : List ℚ).zip (([(1 : ℚ)] : List ℚ).zip
          ([(3 : ℚ)] : List ℚ))) rs
        = ((remove_sinusoids_single oFlat 0 0 [0] [0] [2] [1] [3] 2).2.1).zip
            (((remove_sinusoids_single oFlat 0 0 [0] [0] [2] [1] [3] 2).2.2.1).zip
              ((remove_sinusoids_single oFlat 0 0 [0] [0] [2] [1] [3] 2).2.2.2)) ∧
      ((remove_sinusoids_single oFlat 0 0 [0] [0] [2] [1] [3] 2).2.1).length
        + rs.length = ([(2 : ℚ)] : List ℚ).length) :=
  ⟨rfl, rfl, c10_remove_only_deletes oFlat 0 0 [0] [0] [2] [1] [3] 2 rfl rfl⟩


/-! ## C7: `fix_harmonic_frequency` raises iff no harmonic is found -/

/-- `max 1 (round (f * p))` is the positive integer nearest to `f * p`:
no other positive integer multiple is closer. -/
theorem nearestHarmN_le (f p : ℚ) (n : ℤ) (hn : 1 ≤ n) :
    |f * p - (nearestHarmN f p : ℚ)| ≤ |f * p - (n : ℚ)| := by
  rw [nearestHarmN, ratRound_eq_round]
  rcases le_or_lt 1 (round (f * p)) with h | h
  · rw [max_eq_right h]
    exact round_le (f * p) n
  · rw [max_eq_left h.le]
    have h0 : round (f * p) ≤ 0 := by omega
    have h1 := abs_sub_round (f * p)
    have h2 : f * p - (round (f * p) : ℚ) ≤ 1 / 2 := (abs_le.1 h1).2
    have h3 : (round (f * p) : ℚ) ≤ 0 := by exact_mod_cast h0
    have h4 : (1 : ℚ) ≤ (n : ℚ) := by exact_mod_cast hn
    rw [abs_of_nonpos (by push_cast; linarith), abs_of_nonpos (by linarith)]
    push_cast
    linarith

/-- A frequency passes the harmonic test iff it is within the tolerance
of some exact positive integer multiple of `1 / p_orb`. -/
theorem isHarmCand_iff_exists (f p tol : ℚ) (hp : 0 < p) :
    isHarmCand f p tol = true ↔ ∃ n : ℤ, 1 ≤ n ∧ |f - (n : ℚ) / p| ≤ tol := by
  rw [isHarmCand, decide_eq_true_iff]
  constructor
  · intro h
    exact ⟨nearestHarmN f p, le_max_left 1 _, h⟩
  · rintro ⟨n, hn, hne⟩
    refine le_trans ?_ hne
    have heq : ∀ m : ℚ, f - m / p = (f * p - m) / p := by
      intro m; field_simp
    rw [heq, heq, abs_div, abs_div, abs_of_pos hp]
    exact div_le_div_of_nonneg_right (nearestHarmN_le f p n hn) hp.le

/-- The candidate scan is empty iff no listed frequency passes the
harmonic test. -/
theorem findHarmAux_eq_nil_iff (p tol : ℚ) :
    ∀ (i : ℕ) (xs : List ℚ),
      (findHarmAux p tol i xs = [] ↔ ∀ f ∈ xs, ¬isHarmCand f p tol = true) := by
  intro i xs
  induction xs generalizing i with
  | nil => simp [findHarmAux]
  | cons x xs ih =>
    simp only [findHarmAux]
    by_cases h : isHarmCand x p tol
    · rw [if_pos h]
      constructor
      · intro hh; exact absurd hh (List.cons_ne_nil _ _)
      · intro hh; exact absurd h (hh x (List.mem_cons_self x xs))
    · rw [if_neg h, ih (i + 1)]
      constructor
      · intro hh f hf
        rcases List.mem_cons.1 hf with rfl | hf
        · exact h
        · exact hh f hf
      · intro hh f hf
        exact hh f (List.mem_cons_of_mem x hf)

/-- `fix_harmonic_frequency` returns its error value iff the harmonic
scan at tolerance `((3/2) / t_ptp) / 2` comes back empty; the test is the
first thing the function does, before any model parameter is touched. -/
theorem fix_harmonic_error_iff (o : Oracle V) [Add V] [Sub V] (flux : V)
    (t_ptp p_orb : ℚ) (const slope f_n a_n ph_n : List ℚ) (n_chunks : ℕ) :
    (∃ e, fix_harmonic_frequency o flux t_ptp p_orb const slope f_n a_n ph_n n_chunks
        = Except.error e)
      ↔ find_harmonics_tolerance f_n p_orb (((3 / 2) / t_ptp) / 2) = [] := by
  by_cases h : find_harmonics_tolerance f_n p_orb (((3 / 2) / t_ptp) / 2) = []
  · simp only [fix_harmonic_frequency, if_pos h]
    exact ⟨fun _ => h, fun _ => ⟨"No harmonic frequencies found", rfl⟩⟩
  · simp only [fix_harmonic_frequency, if_neg h]
    constructor
    · rintro ⟨e, he⟩
      exact absurd he (by simp)
    · intro hh; exact absurd hh h

/-- **C7.**  `fix_harmonic_frequency` fails (with `Except.error`, the
embedding of the `ValueError`) if and only if no frequency of `f_n`
lies within `f_tol = ((1.5 / t_tot)) / 2` — half a Rayleigh unit — of an
exact positive integer multiple of `1 / p_orb`; the test precedes every
model computation, so an erroring call produces no output and modifies
nothing (the error carries only the message). -/
theorem c7_error_iff_no_harmonic (o : Oracle V) [Add V] [Sub V] (flux : V)
    (t_ptp p_orb : ℚ) (const slope f_n a_n ph_n : List ℚ) (n_chunks : ℕ)
    (hp : 0 < p_orb) :
    (∃ e, fix_harmonic_frequency o flux t_ptp p_orb const slope f_n a_n ph_n n_chunks
        = Except.error e)
      ↔ ¬∃ f ∈ f_n, ∃ n : ℤ, 1 ≤ n ∧ |f - (n : ℚ) / p_orb| ≤ ((3 / 2) / t_ptp) / 2 := by
  rw [fix_harmonic_error_iff, find_harmonics_tolerance, findHarmAux_eq_nil_iff]
  constructor
  · rintro h ⟨f, hf, n, hn, hne⟩
    exact h f hf ((isHarmCand_iff_exists f p_orb _ hp).2 ⟨n, hn, hne⟩)
  · intro h f hf hc
    exact h ⟨f, hf, (isHarmCand_iff_exists f p_orb _ hp).1 hc⟩

/-- C7 witness: at `p_orb = 1`, `t_ptp = 10`, the single frequency `10.5`
sits half a cycle from the nearest harmonic, far beyond the tolerance
`0.075`, and the call errors. -/
theorem c7_error_iff_no_harmonic_witness :
    (0 : ℚ) < 1 ∧
    ((∃ e, fix_harmonic_frequency oFlat 0 10 1 [0] [0] [21/2] [1] [0] 2
        = Except.error e)
      ↔ ¬∃ f ∈ ([21/2] : List ℚ), ∃ n : ℤ, 1 ≤ n ∧
          |f - (n : ℚ) / 1| ≤ ((3 / 2) / 10) / 2) :=
  ⟨by norm_num,
    c7_error_iff_no_harmonic oFlat 0 10 1 [0] [0] [21/2] [1] [0] 2 (by norm_num)⟩


/-! ## C6: harmonic frequencies are fixed exactly -/

/-- Membership in `insertUnique`. -/
theorem insertUnique_mem (x y : ℤ) (l : List ℤ) :
    y ∈ insertUnique x l ↔ y = x ∨ y ∈ l := by
  induction l with
  | nil => simp [insertUnique]
  | cons a l ih =>
    simp only [insertUnique]
    split_ifs with h1 h2
    · simp [List.mem_cons]
    · subst h2
      simp only [List.mem_cons]
      tauto
    · simp only [List.mem_cons, ih]
      tauto

/-- `insertUnique` preserves strict sortedness. -/
theorem insertUnique_pairwise (x : ℤ) (l : List ℤ) (h : l.Pairwise (· < ·)) :
    (insertUnique x l).Pairwise (· < ·) := by
  induction l with
  | nil => simp [insertUnique]
  | cons a l ih =>
    rcases List.pairwise_cons.1 h with ⟨ha, hl⟩
    simp only [insertUnique]
    split_ifs with h1 h2
    · refine List.pairwise_cons.2 ⟨?_, h⟩
      intro y hy
      rcases List.mem_cons.1 hy with rfl | hy
      · exact h1
      · exact h1.trans (ha y hy)
    · exact h
    · refine List.pairwise_cons.2 ⟨?_, ih hl⟩
      intro y hy
      rcases (insertUnique_mem x y l).1 hy with rfl | hy
      · omega
      · exact ha y hy

/-- Membership in `np.unique`. -/
theorem uniqueSorted_mem (xs : List ℤ) (y : ℤ) :
    y ∈ uniqueSorted xs ↔ y ∈ xs := by
  have key : ∀ (l : List ℤ) (acc : List ℤ),
      (y ∈ l.foldl (fun acc x => insertUnique x acc) acc ↔ y ∈ acc ∨ y ∈ l) := by
    intro l
    induction l with
    | nil => intro acc; simp
    | cons x l ih =>
      intro acc
      rw [List.foldl_cons, ih, insertUnique_mem]
      simp only [List.mem_cons]
      tauto
  rw [uniqueSorted, key]
  simp

/-- `np.unique` returns a strictly sorted list. -/
theorem uniqueSorted_pairwise (xs : List ℤ) :
    (uniqueSorted xs).Pairwise (· < ·) := by
  have key : ∀ (l : List ℤ) (acc : List ℤ), acc.Pairwise (· < ·) →
      (l.foldl (fun acc x => insertUnique x acc) acc).Pairwise (· < ·) := by
    intro l
    induction l with
    | nil => intro acc h; exact h
    | cons x l ih =>
      intro acc h
      rw [List.foldl_cons]
      exact ih _ (insertUnique_pairwise x acc h)
  exact key xs [] List.Pairwise.nil

/-- `np.unique` returns distinct values. -/
theorem uniqueSorted_nodup (xs : List ℤ) : (uniqueSorted xs).Nodup :=
  (uniqueSorted_pairwise xs).imp (fun h => ne_of_lt h)

/-- Complete characterization of the harmonic candidates: `(j, k)` is
produced iff some scanned position `d` holds a passing frequency with
nearest harmonic `k` and `j = i + d`. -/
theorem findHarmAux_mem_iff (p tol : ℚ) :
    ∀ (i : ℕ) (xs : List ℚ) (q : ℕ × ℤ),
      q ∈ findHarmAux p tol i xs ↔
        ∃ d, d < xs.length ∧ q.1 = i + d ∧
          isHarmCand (xs.getD d 0) p tol = true ∧
          q.2 = nearestHarmN (xs.getD d 0) p := by
  intro i xs
  induction xs generalizing i with
  | nil => intro q; simp [findHarmAux]
  | cons x xs ih =>
    rintro ⟨q1, q2⟩
    simp only [findHarmAux]
    by_cases h : isHarmCand x p tol
    · rw [if_pos h]
      constructor
      · intro hq
        rcases List.mem_cons.1 hq with he | hq
        · have e1 : q1 = i := congrArg Prod.fst he
          have e2 : q2 = nearestHarmN x p := congrArg Prod.snd he
          exact ⟨0, by simp, by simpa using e1, by simpa using h, by simpa using e2⟩
        · rcases (ih (i + 1) ⟨q1, q2⟩).1 hq with ⟨d, hd, h1, h2, h3⟩
          exact ⟨d + 1, by simpa using hd, by simp at h1 ⊢; omega,
            by simpa using h2, by simpa using h3⟩
      · rintro ⟨d, hd, h1, h2, h3⟩
        cases d with
        | zero =>
          simp only [List.getD_cons_zero] at h2 h3
          simp only [add_zero] at h1
          exact List.mem_cons.2 (Or.inl (by simp [h1, h3]))
        | succ d =>
          refine List.mem_cons.2 (Or.inr ((ih (i + 1) ⟨q1, q2⟩).2
            ⟨d, by simpa using hd, by simp at h1 ⊢; omega,
              by simpa using h2, by simpa using h3⟩))
    · rw [if_neg h, ih (i + 1) ⟨q1, q2⟩]
      constructor
      · rintro ⟨d, hd, h1, h2, h3⟩
        exact ⟨d + 1, by simpa using hd, by simp at h1 ⊢; omega,
          by simpa using h2, by simpa using h3⟩
      · rintro ⟨d, hd, h1, h2, h3⟩
        cases d with
        | zero => exact absurd (by simpa using h2) h
        | succ d =>
          exact ⟨d, by simpa using hd, by simp at h1 ⊢; omega,
            by simpa using h2, by simpa using h3⟩

/-- Candidate harmonic numbers are positive. -/
theorem findHarmAux_snd_pos (p tol : ℚ) (i : ℕ) (xs : List ℚ) (q : ℕ × ℤ)
    (hq : q ∈ findHarmAux p tol i xs) : 1 ≤ q.2 := by
  rcases (findHarmAux_mem_iff p tol i xs q).1 hq with ⟨d, _, _, _, h3⟩
  rw [h3, nearestHarmN]
  exact le_max_left 1 _

/-- Scanning an appended list splits the candidate list. -/
theorem findHarmAux_append (p tol : ℚ) :
    ∀ (xs ys : List ℚ) (i : ℕ),
      findHarmAux p tol i (xs ++ ys)
        = findHarmAux p tol i xs ++ findHarmAux p tol (i + xs.length) ys := by
  intro xs
  induction xs with
  | nil => intro ys i; simp [findHarmAux]
  | cons x xs ih =>
    intro ys i
    have e : i + 1 + xs.length = i + (xs.length + 1) := by omega
    simp only [List.cons_append, findHarmAux, List.append_eq]
    by_cases h : isHarmCand x p tol
    · rw [if_pos h, if_pos h, ih ys (i + 1), List.cons_append, List.length_cons, e]
    · rw [if_neg h, if_neg h, ih ys (i + 1), List.length_cons, e]

/-- If every scanned frequency passes, the candidate indices are the
whole scanned index range. -/
theorem findHarmAux_allcand_fst (p tol : ℚ) :
    ∀ (ns : List ℤ) (i : ℕ),
      (∀ n ∈ ns, isHarmCand ((n : ℚ) / p) p tol = true) →
      (findHarmAux p tol i (ns.map (fun n : ℤ => (n : ℚ) / p))).map (·.1)
        = List.range' i ns.length := by
  intro ns
  induction ns with
  | nil => intro i _; simp [findHarmAux]
  | cons n ns ih =>
    intro i h
    simp only [List.map_cons, findHarmAux,
      if_pos (h n (List.mem_cons_self n ns)), List.length_cons, List.range'_succ]
    rw [ih (i + 1) (fun m hm => h m (List.mem_cons_of_mem n hm))]

/-- Failing the harmonic test at a tolerance implies failing it at any
smaller tolerance. -/
theorem isHarmCand_mono (f p t1 t2 : ℚ) (h12 : t2 ≤ t1)
    (h : isHarmCand f p t1 = false) : isHarmCand f p t2 = false := by
  simp only [isHarmCand, decide_eq_false_iff_not] at h ⊢
  intro hc
  exact h (hc.trans h12)

/-- An exact harmonic is assigned its own harmonic number. -/
theorem nearestHarmN_exact (p : ℚ) (hp : 0 < p) (n : ℤ) (hn : 1 ≤ n) :
    nearestHarmN ((n : ℚ) / p) p = n := by
  rw [nearestHarmN, div_mul_cancel₀ _ hp.ne', ratRound_eq_round, round_intCast]
  exact max_eq_right hn

/-- An exact harmonic passes the harmonic test at any tolerance `≥ 0`. -/
theorem isHarmCand_exact (p tol : ℚ) (hp : 0 < p) (htol : 0 ≤ tol)
    (n : ℤ) (hn : 1 ≤ n) :
    isHarmCand ((n : ℚ) / p) p tol = true := by
  rw [isHarmCand, nearestHarmN_exact p hp n hn]
  simpa using htol

/-- Phase 1 of `fix_harmonic_frequency` appends one exact harmonic
`n / p_orb` per distinct harmonic number, with one refit amplitude and
phase each. -/
theorem fixPhase1Aux_parts (o : Oracle V) [Add V] [Sub V] (p_orb : ℚ)
    (f_n a_n ph_n : List ℚ) (hc : List (ℕ × ℤ)) :
    ∀ (ns : List ℤ) (acc : P1Acc V),
      (fixPhase1Aux o p_orb f_n a_n ph_n hc ns acc).fNew
          = acc.fNew ++ ns.map (fun n : ℤ => (n : ℚ) / p_orb) ∧
      (fixPhase1Aux o p_orb f_n a_n ph_n hc ns acc).aNew.length
          = acc.aNew.length + ns.length ∧
      (fixPhase1Aux o p_orb f_n a_n ph_n hc ns acc).phNew.length
          = acc.phNew.length + ns.length := by
  intro ns
  induction ns with
  | nil => intro acc; simp [fixPhase1Aux]
  | cons n rest ih =>
    intro acc
    simp only [fixPhase1Aux]
    refine ⟨?_, ?_, ?_⟩
    · rw [(ih _).1]
      simp
    · rw [(ih _).2.1]
      simp
      omega
    · rw [(ih _).2.2]
      simp
      omega

/-- Phase 1 removes exactly the candidates whose harmonic number it
processes. -/
theorem fixPhase1Aux_rm_mem (o : Oracle V) [Add V] [Sub V] (p_orb : ℚ)
    (f_n a_n ph_n : List ℚ) (hc : List (ℕ × ℤ)) :
    ∀ (ns : List ℤ) (acc : P1Acc V) (i : ℕ),
      (i ∈ (fixPhase1Aux o p_orb f_n a_n ph_n hc ns acc).rm ↔
        i ∈ acc.rm ∨ ∃ n, n ∈ ns ∧ (i, n) ∈ hc) := by
  intro ns
  induction ns with
  | nil => intro acc i; simp [fixPhase1Aux]
  | cons n rest ih =>
    intro acc i
    simp only [fixPhase1Aux]
    rw [ih]
    simp only [List.mem_append, List.mem_map]
    constructor
    · rintro ((h | h) | ⟨k, hk, hik⟩)
      · exact Or.inl h
      · rcases h with ⟨q, hq, hq1⟩
        rcases List.mem_filter.1 hq with ⟨hqhc, hq2⟩
        refine Or.inr ⟨n, List.mem_cons_self _ _, ?_⟩
        have hq2' : q.2 = n := by simpa using hq2
        have : q = (i, n) := by
          rcases q with ⟨a, b⟩
          simp only [Prod.mk.injEq]
          exact ⟨hq1, hq2'⟩
        rw [← this]
        exact hqhc
      · exact Or.inr ⟨k, List.mem_cons_of_mem _ hk, hik⟩
    · rintro (h | ⟨k, hk, hik⟩)
      · exact Or.inl (Or.inl h)
      · rcases List.mem_cons.1 hk with rfl | hk
        · exact Or.inl (Or.inr ⟨(i, k), List.mem_filter.2 ⟨hik, by simp⟩, rfl⟩)
        · exact Or.inr ⟨k, hk, hik⟩

/-- Phase 2 only touches positions from its worklist: entries from
position `m` on, and all three list lengths, are exactly preserved, and
its removal marks come from the worklist. -/
theorem fixPhase2Aux_inv (o : Oracle V) [Add V] [Sub V] (t_ptp freq_res : ℚ)
    (m : ℕ) :
    ∀ (l : List ℕ) (acc : P2Acc V), (∀ i ∈ l, i < m) →
      (fixPhase2Aux o t_ptp freq_res l acc).fN.drop m = acc.fN.drop m ∧
      (fixPhase2Aux o t_ptp freq_res l acc).aN.drop m = acc.aN.drop m ∧
      (fixPhase2Aux o t_ptp freq_res l acc).phN.drop m = acc.phN.drop m ∧
      (fixPhase2Aux o t_ptp freq_res l acc).fN.length = acc.fN.length ∧
      (fixPhase2Aux o t_ptp freq_res l acc).aN.length = acc.aN.length ∧
      (fixPhase2Aux o t_ptp freq_res l acc).phN.length = acc.phN.length ∧
      (∀ j ∈ (fixPhase2Aux o t_ptp freq_res l acc).rm, j ∈ acc.rm ∨ j ∈ l) := by
  intro l
  induction l with
  | nil =>
    intro acc _
    exact ⟨rfl, rfl, rfl, rfl, rfl, rfl, fun j hj => Or.inl hj⟩
  | cons i rest ih =>
    intro acc hl
    simp only [fixPhase2Aux]
    obtain ⟨h1, h2, h3, h4, h5, h6, h7⟩ :=
      ih _ (fun j hj => hl j (List.mem_cons_of_mem _ hj))
    have him : i < m := hl i (List.mem_cons_self _ _)
    refine ⟨?_, ?_, ?_, ?_, ?_, ?_, ?_⟩
    · rw [h1, List.drop_set, if_pos him]
    · rw [h2, List.drop_set, if_pos him]
    · rw [h3, List.drop_set, if_pos him]
    · rw [h4, List.length_set]
    · rw [h5, List.length_set]
    · rw [h6, List.length_set]
    · intro j hj
      rcases h7 j hj with hj2 | hj2
      · split at hj2
        · rcases List.mem_append.1 hj2 with hj3 | hj3
          · exact Or.inl hj3
          · rcases List.mem_singleton.1 hj3 with rfl
            exact Or.inr (List.mem_cons_self _ _)
        · exact Or.inl hj2
      · exact Or.inr (List.mem_cons_of_mem _ hj2)

/-- `deleteIdxsAux` distributes over an appended list. -/
theorem deleteIdxsAux_append {α : Type} (rs : List ℕ) :
    ∀ (xs ys : List α) (i : ℕ),
      deleteIdxsAux rs i (xs ++ ys)
        = deleteIdxsAux rs i xs ++ deleteIdxsAux rs (i + xs.length) ys := by
  intro xs
  induction xs with
  | nil => intro ys i; simp [deleteIdxsAux]
  | cons x xs ih =>
    intro ys i
    have e : i + 1 + xs.length = i + (xs.length + 1) := by omega
    simp only [List.cons_append, deleteIdxsAux, List.append_eq]
    by_cases h : i ∈ rs
    · rw [if_pos h, if_pos h, ih ys (i + 1), List.length_cons, e]
    · rw [if_neg h, if_neg h, ih ys (i + 1), List.length_cons, List.cons_append, e]

/-- `deleteIdxsAux` is the identity when every listed position lies
before the scan start. -/
theorem deleteIdxsAux_of_lt {α : Type} (rs : List ℕ) :
    ∀ (ys : List α) (i : ℕ), (∀ r ∈ rs, r < i) → deleteIdxsAux rs i ys = ys := by
  intro ys
  induction ys with
  | nil => intro i _; rfl
  | cons y ys ih =>
    intro i h
    have hni : i ∉ rs := fun hmem => absurd (h i hmem) (lt_irrefl i)
    rw [deleteIdxsAux, if_neg hni, ih (i + 1) (fun r hr => (h r hr).trans (by omega))]

/-- Deleting positions that all lie before `m` leaves the tail from `m`
untouched. -/
theorem deleteIdxs_below_split {α : Type} (xs : List α) (rs : List ℕ) (m : ℕ)
    (hm : m ≤ xs.length) (hb : ∀ r ∈ rs, r < m) :
    deleteIdxs xs rs = deleteIdxs (xs.take m) rs ++ xs.drop m := by
  conv_lhs => rw [← List.take_append_drop m xs]
  rw [deleteIdxs, deleteIdxsAux_append, deleteIdxs]
  have hlen : (0 : ℕ) + (xs.take m).length = m := by
    rw [List.length_take]
    omega
  rw [hlen, deleteIdxsAux_of_lt rs (xs.drop m) m hb]

/-- Every survivor of `deleteIdxsAux` is an original entry whose position
was not listed. -/
theorem deleteIdxsAux_mem_origin (rs : List ℕ) :
    ∀ (xs : List ℚ) (i : ℕ) (y : ℚ), y ∈ deleteIdxsAux rs i xs →
      ∃ d, d < xs.length ∧ y = xs.getD d 0 ∧ (i + d) ∉ rs := by
  intro xs
  induction xs with
  | nil => intro i y h; simp [deleteIdxsAux] at h
  | cons x xs ih =>
    intro i y h
    rw [deleteIdxsAux] at h
    by_cases hm : i ∈ rs
    · rw [if_pos hm] at h
      rcases ih (i + 1) y h with ⟨d, hd, h1, h2⟩
      exact ⟨d + 1, by simpa using hd, by simpa using h1,
        by rwa [show i + (d + 1) = i + 1 + d by omega]⟩
    · rw [if_neg hm] at h
      rcases List.mem_cons.1 h with rfl | h
      · exact ⟨0, by simp, by simp, by simpa using hm⟩
      · rcases ih (i + 1) y h with ⟨d, hd, h1, h2⟩
        exact ⟨d + 1, by simpa using hd, by simpa using h1,
          by rwa [show i + (d + 1) = i + 1 + d by omega]⟩

/-- The positions surviving the removal of a trailing index block are the
leading positions. -/
theorem filter_not_mem_range' (m k : ℕ) :
    (List.range (m + k)).filter (fun i => i ∉ List.range' m k) = List.range m := by
  rw [List.range_add m k, List.filter_append]
  have h1 : (List.range m).filter (fun i => i ∉ List.range' m k) = List.range m := by
    refine List.filter_eq_self.2 ?_
    intro a ha
    have h2 := List.mem_range.1 ha
    simp only [List.mem_range'_1, decide_eq_true_eq]
    omega
  have h2 : ((List.range k).map (fun x => m + x)).filter
      (fun i => i ∉ List.range' m k) = [] := by
    rw [List.filter_eq_nil_iff]
    intro a ha
    rcases List.mem_map.1 ha with ⟨x, hx, rfl⟩
    have h3 := List.mem_range.1 hx
    simp only [List.mem_range'_1, decide_eq_true_eq]
    omega
  rw [h1, h2, List.append_nil]

/-- Indexing `np.arange`. -/
theorem range_getD (m i : ℕ) (h : i < m) : (List.range m).getD i 0 = i := by
  rw [List.getD_eq_getElem _ _ (by simpa using h), List.getElem_range]


/-- **C6.**  On a successful `fix_harmonic_frequency` call, the returned
frequency array is a re-extracted non-harmonic front followed by exactly
one sinusoid per distinct candidate harmonic number `n`, with frequency
exactly `n / p_orb` (no tolerance), each classified as a harmonic with
assigned number `n`; the amplitude and phase arrays carry one refit value
per appended harmonic, and the phase-1 removal list holds exactly the
indices of the candidate sinusoids, so every candidate mapping to some
number was removed and replaced by its single fixed-frequency sinusoid. -/
theorem c6_harmonics_fixed_exactly (o : Oracle V) [Add V] [Sub V] (flux : V)
    (t_ptp p_orb : ℚ) (const slope f_n a_n ph_n : List ℚ) (n_chunks : ℕ)
    (hp : 0 < p_orb) (htol : (1 : ℚ) / 10 ^ 9 ≤ (3/2) / t_ptp / 2)
    (hla : a_n.length = f_n.length) (hlp : ph_n.length = f_n.length)
    (hc : List (ℕ × ℤ))
    (hhc : hc = find_harmonics_tolerance f_n p_orb ((3/2) / t_ptp / 2))
    (hne : hc ≠ [])
    (ns : List ℤ) (hns : ns = uniqueSorted (hc.map (·.2)))
    (r1 : P1Acc V)
    (hr1 : r1 = fixPhase1Aux o p_orb f_n a_n ph_n hc ns
      ⟨flux - o.sum_sines f_n a_n ph_n,
        flux - o.sum_sines f_n a_n ph_n - o.linear_curve (const, slope),
        (const, slope), [], [], [], []⟩)
    (f1 a1 ph1 : List ℚ)
    (hf1 : f1 = deleteIdxs f_n r1.rm ++ r1.fNew)
    (ha1 : a1 = deleteIdxs a_n r1.rm ++ r1.aNew)
    (hph1 : ph1 = deleteIdxs ph_n r1.rm ++ r1.phNew)
    (hc2 : List (ℕ × ℤ)) (hhc2 : hc2 = find_harmonics_from_pattern f1 p_orb (1 / 10 ^ 9))
    (harmIdx2 : List ℕ) (hhi : harmIdx2 = hc2.map (·.1))
    (non_harm : List ℕ)
    (hnh : non_harm = (List.range f1.length).filter (fun i => i ∉ harmIdx2))
    (r2 : P2Acc V)
    (hr2 : r2 = fixPhase2Aux o t_ptp ((3/2) / t_ptp) non_harm ⟨f1, a1, ph1, r1.cur, r1.cs, []⟩)
    (del : List ℕ) (hdel : del = r2.rm.map (fun i => non_harm.getD i 0))
    (m : ℕ) (hm : m = (deleteIdxs f_n r1.rm).length)
    (r : List ℚ × List ℚ × List ℚ × List ℚ × List ℚ)
    (hok : fix_harmonic_frequency o flux t_ptp p_orb const slope f_n a_n ph_n n_chunks
      = Except.ok r) :
    r.2.2.1 = deleteIdxs (r2.fN.take m) del ++ ns.map (fun n : ℤ => (n : ℚ) / p_orb) ∧
    r.2.2.2.1 = deleteIdxs (r2.aN.take m) del ++ r1.aNew ∧
    r.2.2.2.2 = deleteIdxs (r2.phN.take m) del ++ r1.phNew ∧
    r1.aNew.length = ns.length ∧ r1.phNew.length = ns.length ∧
    (deleteIdxs (r2.aN.take m) del).length = (deleteIdxs (r2.fN.take m) del).length ∧
    (deleteIdxs (r2.phN.take m) del).length = (deleteIdxs (r2.fN.take m) del).length ∧
    ns ≠ [] ∧ ns.Nodup ∧ (∀ n ∈ ns, 1 ≤ n) ∧
    (∀ n : ℤ, n ∈ ns ↔ ∃ q ∈ hc, q.2 = n) ∧
    (∀ n ∈ ns, nearestHarmN ((n : ℚ) / p_orb) p_orb = n ∧
      isHarmCand ((n : ℚ) / p_orb) p_orb (1 / 10 ^ 9) = true) ∧
    (∀ i : ℕ, i ∈ r1.rm ↔ ∃ k : ℤ, (i, k) ∈ hc) := by
  -- fold the source's intermediate values back into their names in `hok`
  simp only [fix_harmonic_frequency] at hok
  rw [← hhc, if_neg hne, ← hns, ← hr1, ← hf1, ← ha1, ← hph1, ← hhc2, ← hhi, ← hnh,
    ← hr2, ← hdel] at hok
  have hOK := (Except.ok.inj hok).symm
  -- the distinct harmonic numbers
  have hnsmem : ∀ n : ℤ, n ∈ ns ↔ ∃ q ∈ hc, q.2 = n := by
    intro n
    rw [hns, uniqueSorted_mem]
    simp
  have hnsne : ns ≠ [] := by
    rcases List.exists_mem_of_ne_nil hc hne with ⟨q, hq⟩
    exact List.ne_nil_of_mem ((hnsmem q.2).2 ⟨q, hq, rfl⟩)
  have hnsnd : ns.Nodup := hns ▸ uniqueSorted_nodup _
  have hnspos : ∀ n ∈ ns, 1 ≤ n := by
    intro n hn
    rcases (hnsmem n).1 hn with ⟨q, hq, hq2⟩
    rw [hhc, find_harmonics_tolerance] at hq
    have := findHarmAux_snd_pos p_orb ((3/2) / t_ptp / 2) 0 f_n q hq
    omega
  have hharm : ∀ n ∈ ns, nearestHarmN ((n : ℚ) / p_orb) p_orb = n ∧
      isHarmCand ((n : ℚ) / p_orb) p_orb (1 / 10 ^ 9) = true := by
    intro n hn
    exact ⟨nearestHarmN_exact p_orb hp n (hnspos n hn),
      isHarmCand_exact p_orb _ hp (by norm_num) n (hnspos n hn)⟩
  -- phase 1
  have hfNew : r1.fNew = ns.map (fun n : ℤ => (n : ℚ) / p_orb) := by
    rw [hr1, (fixPhase1Aux_parts o p_orb f_n a_n ph_n hc ns _).1]
    simp
  have haLen : r1.aNew.length = ns.length := by
    rw [hr1, (fixPhase1Aux_parts o p_orb f_n a_n ph_n hc ns _).2.1]
    simp
  have hphLen : r1.phNew.length = ns.length := by
    rw [hr1, (fixPhase1Aux_parts o p_orb f_n a_n ph_n hc ns _).2.2]
    simp
  have hrmiff : ∀ i : ℕ, i ∈ r1.rm ↔ ∃ k : ℤ, (i, k) ∈ hc := by
    intro i
    rw [hr1, fixPhase1Aux_rm_mem]
    simp only [List.not_mem_nil, false_or]
    constructor
    · rintro ⟨n, _, hin⟩
      exact ⟨n, hin⟩
    · rintro ⟨k, hik⟩
      exact ⟨k, (hnsmem k).2 ⟨(i, k), hik, rfl⟩, hik⟩
  -- the front length
  have hma : (deleteIdxs a_n r1.rm).length = m := by
    have h1 := deleteIdxsAux_length_add r1.rm f_n 0
    have h2 := deleteIdxsAux_length_add r1.rm a_n 0
    rw [hla] at h2
    rw [hm]
    simp only [deleteIdxs]
    omega
  have hmph : (deleteIdxs ph_n r1.rm).length = m := by
    have h1 := deleteIdxsAux_length_add r1.rm f_n 0
    have h2 := deleteIdxsAux_length_add r1.rm ph_n 0
    rw [hlp] at h2
    rw [hm]
    simp only [deleteIdxs]
    omega
  have hf1len : f1.length = m + ns.length := by
    rw [hf1, List.length_append, hfNew, List.length_map, hm]
  -- the front of the rebuilt array holds no harmonic candidate
  have hfront_nc : ∀ y ∈ deleteIdxs f_n r1.rm,
      isHarmCand y p_orb (1 / 10 ^ 9) = false := by
    intro y hy
    rcases deleteIdxsAux_mem_origin r1.rm f_n 0 y hy with ⟨d, hd, hyd, hdn⟩
    have hnc0 : isHarmCand (f_n.getD d 0) p_orb ((3/2) / t_ptp / 2) = false := by
      rcases Bool.eq_false_or_eq_true (isHarmCand (f_n.getD d 0) p_orb
          ((3/2) / t_ptp / 2)) with hcc | hcc
      · exfalso
        have hmem : ((d, nearestHarmN (f_n.getD d 0) p_orb) : ℕ × ℤ) ∈ hc := by
          rw [hhc, find_harmonics_tolerance, findHarmAux_mem_iff]
          exact ⟨d, hd, by simp, hcc, rfl⟩
        have hdm : d ∈ r1.rm := (hrmiff d).2 ⟨_, hmem⟩
        simp only [Nat.zero_add] at hdn
        exact hdn hdm
      · exact hcc
    rw [hyd]
    exact isHarmCand_mono _ _ _ _ htol hnc0
  -- the harmonic positions of the rebuilt array are its tail positions
  have hhi' : harmIdx2 = List.range' m ns.length := by
    rw [hhi, hhc2, find_harmonics_from_pattern, hf1, findHarmAux_append, List.map_append]
    have hnil : findHarmAux p_orb (1 / 10 ^ 9) 0 (deleteIdxs f_n r1.rm) = [] := by
      refine (findHarmAux_eq_nil_iff p_orb (1 / 10 ^ 9) 0 _).2 ?_
      intro f hf
      rw [hfront_nc f hf]
      simp
    rw [hnil, hfNew]
    simp only [List.map_nil, List.nil_append]
    rw [findHarmAux_allcand_fst p_orb (1 / 10 ^ 9) ns _ (fun n hn => (hharm n hn).2)]
    rw [Nat.zero_add, ← hm]
  have hnh' : non_harm = List.range m := by
    rw [hnh, hhi', hf1len, filter_not_mem_range']
  have hnh_lt : ∀ i ∈ non_harm, i < m := by
    rw [hnh']
    intro i hi
    exact List.mem_range.1 hi
  -- phase 2
  have hP2 := fixPhase2Aux_inv o t_ptp ((3/2) / t_ptp) m non_harm
    ⟨f1, a1, ph1, r1.cur, r1.cs, []⟩ hnh_lt
  have hr2fl : r2.fN.length = m + ns.length := by
    rw [hr2, hP2.2.2.2.1]
    exact hf1len
  have hr2al : r2.aN.length = m + ns.length := by
    rw [hr2, hP2.2.2.2.2.1]
    show a1.length = m + ns.length
    rw [ha1, List.length_append, hma, haLen]
  have hr2phl : r2.phN.length = m + ns.length := by
    rw [hr2, hP2.2.2.2.2.2.1]
    show ph1.length = m + ns.length
    rw [hph1, List.length_append, hmph, hphLen]
  have hdropf : r2.fN.drop m = ns.map (fun n : ℤ => (n : ℚ) / p_orb) := by
    rw [hr2, hP2.1]
    show f1.drop m = _
    rw [hf1, hm, List.drop_left, hfNew]
  have hdropa : r2.aN.drop m = r1.aNew := by
    rw [hr2, hP2.2.1]
    show a1.drop m = _
    rw [ha1, ← hma, List.drop_left]
  have hdropph : r2.phN.drop m = r1.phNew := by
    rw [hr2, hP2.2.2.1]
    show ph1.drop m = _
    rw [hph1, ← hmph, List.drop_left]
  have hrmsub : ∀ j ∈ r2.rm, j < m := by
    rw [hr2]
    intro j hj
    rcases hP2.2.2.2.2.2.2 j hj with h | h
    · exact absurd h (List.not_mem_nil j)
    · exact hnh_lt j h
  have hdel_lt : ∀ d ∈ del, d < m := by
    rw [hdel]
    intro d hd
    rcases List.mem_map.1 hd with ⟨i, hi, rfl⟩
    have him := hrmsub i hi
    rw [hnh', range_getD m i him]
    exact him
  -- the final deletions keep the harmonic tail intact
  have hfa : deleteIdxs r2.fN del
      = deleteIdxs (r2.fN.take m) del ++ ns.map (fun n : ℤ => (n : ℚ) / p_orb) := by
    rw [deleteIdxs_below_split r2.fN del m (by rw [hr2fl]; omega) hdel_lt, hdropf]
  have haa : deleteIdxs r2.aN del = deleteIdxs (r2.aN.take m) del ++ r1.aNew := by
    rw [deleteIdxs_below_split r2.aN del m (by rw [hr2al]; omega) hdel_lt, hdropa]
  have hpha : deleteIdxs r2.phN del = deleteIdxs (r2.phN.take m) del ++ r1.phNew := by
    rw [deleteIdxs_below_split r2.phN del m (by rw [hr2phl]; omega) hdel_lt, hdropph]
  have htakef : (r2.fN.take m).length = m := by
    rw [List.length_take, hr2fl]
    exact Nat.min_eq_left (Nat.le_add_right m _)
  have htakea : (r2.aN.take m).length = m := by
    rw [List.length_take, hr2al]
    exact Nat.min_eq_left (Nat.le_add_right m _)
  have htakeph : (r2.phN.take m).length = m := by
    rw [List.length_take, hr2phl]
    exact Nat.min_eq_left (Nat.le_add_right m _)
  have hlenA : (deleteIdxs (r2.aN.take m) del).length
      = (deleteIdxs (r2.fN.take m) del).length := by
    have h1 := deleteIdxsAux_length_add del (r2.fN.take m) 0
    have h2 := deleteIdxsAux_length_add del (r2.aN.take m) 0
    rw [htakef] at h1
    rw [htakea] at h2
    simp only [deleteIdxs]
    omega
  have hlenPh : (deleteIdxs (r2.phN.take m) del).length
      = (deleteIdxs (r2.fN.take m) del).length := by
    have h1 := deleteIdxsAux_length_add del (r2.fN.take m) 0
    have h2 := deleteIdxsAux_length_add del (r2.phN.take m) 0
    rw [htakef] at h1
    rw [htakeph] at h2
    simp only [deleteIdxs]
    omega
  refine ⟨?_, ?_, ?_, haLen, hphLen, hlenA, hlenPh, hnsne, hnsnd, hnspos,
    hnsmem, hharm, hrmiff⟩
  · rw [hOK]
    exact hfa
  · rw [hOK]
    exact haa
  · rw [hOK]
    exact hpha


/-- C6 witness: the decomposition on the concrete run with one exact
harmonic (`f_n = [1]`, `p_orb = 2`, ten-day baseline, flat oracle). -/
theorem c6_harmonics_fixed_exactly_witness :
    (0 : ℚ) < 2 ∧ (1 : ℚ) / 10 ^ 9 ≤ (3/2) / 10 / 2 ∧
    find_harmonics_tolerance [1] 2 ((3/2) / 10 / 2) ≠ [] ∧
    fix_harmonic_frequency oFlat 0 10 2 [0] [0] [1] [1] [0] 2 = Except.ok rC6 ∧
    (rC6.2.2.1 = deleteIdxs (p2C6.fN.take 0) []
        ++ ([2] : List ℤ).map (fun n : ℤ => (n : ℚ) / 2) ∧
      rC6.2.2.2.1 = deleteIdxs (p2C6.aN.take 0) [] ++ p1C6.aNew ∧
      rC6.2.2.2.2 = deleteIdxs (p2C6.phN.take 0) [] ++ p1C6.phNew ∧
      p1C6.aNew.length = ([2] : List ℤ).length ∧
      p1C6.phNew.length = ([2] : List ℤ).length ∧
      (deleteIdxs (p2C6.aN.take 0) []).length
        = (deleteIdxs (p2C6.fN.take 0) []).length ∧
      (deleteIdxs (p2C6.phN.take 0) []).length
        = (deleteIdxs (p2C6.fN.take 0) []).length ∧
      ([2] : List ℤ) ≠ [] ∧ ([2] : List ℤ).Nodup ∧
      (∀ n ∈ ([2] : List ℤ), 1 ≤ n) ∧
      (∀ n : ℤ, n ∈ ([2] : List ℤ) ↔ ∃ q ∈ ([(0, 2)] : List (ℕ × ℤ)), q.2 = n) ∧
      (∀ n ∈ ([2] : List ℤ), nearestHarmN ((n : ℚ) / 2) 2 = n ∧
        isHarmCand ((n : ℚ) / 2) 2 (1 / 10 ^ 9) = true) ∧
      (∀ i : ℕ, i ∈ p1C6.rm ↔ ∃ k : ℤ, (i, k) ∈ ([(0, 2)] : List (ℕ × ℤ)))) :=
  ⟨by norm_num, by norm_num, by with_unfolding_all decide, by with_unfolding_all rfl,
    c6_harmonics_fixed_exactly oFlat 0 10 2 [0] [0] [1] [1] [0] 2
      (by norm_num) (by norm_num) rfl rfl
      [(0, 2)] (by with_unfolding_all decide) (by with_unfolding_all decide)
      [2] (by with_unfolding_all decide)
      p1C6 (by with_unfolding_all rfl)
      [1] [1] [0] (by with_unfolding_all decide) (by with_unfolding_all decide)
      (by with_unfolding_all decide)
      [(0, 2)] (by with_unfolding_all decide)
      [0] (by with_unfolding_all decide)
      [] (by with_unfolding_all decide)
      p2C6 (by with_unfolding_all rfl)
      [] (by with_unfolding_all rfl)
      0 (by with_unfolding_all decide)
      rC6 (by with_unfolding_all rfl)⟩

/-- C6 (counterexample).  A non-harmonic sinusoid re-extracted in phase 2
can land within the `10⁻⁹` classification tolerance of a harmonic without
being exactly equal to it, and survives the drift check: the returned
arrays then contain a sinusoid that is identified as a harmonic (number 3
at `p_orb = 2`) whose frequency is *not* `3 / 2` — so "every sinusoid
identified as a harmonic has a frequency exactly equal to k/P" fails for
the returned arrays. -/
theorem c6_refit_reclassified_inexact :
    ∃ c s f2 a2 ph2,
      fix_harmonic_frequency oC6 0 10 2 [0] [0] [1, 8/5] [1, 1] [0, 0] 2
        = Except.ok (c, s, f2, a2, ph2) ∧
      (0, 3) ∈ find_harmonics_from_pattern f2 2 (1 / 10 ^ 9) ∧
      f2.getD 0 0 ≠ (3 : ℚ) / 2 := by
  refine ⟨[], [], [3/2 + 1/10^10, 1], [1, 1], [0, 0], ?_, ?_, ?_⟩
  · with_unfolding_all rfl
  · with_unfolding_all decide
  · with_unfolding_all decide

end StarShine
